import Mathlib

/-!
Verification of the graphsat repository core against its specification.

This file shallowly embeds the data model and the operations of the
repository (`cnf.py`, `mhgraph.py`, `sat.py`, `graph_rewrite.py` and the
`graphsat/` package variants: `translation.py`, `mhgraph.py`,
`morphism.py`) and proves or refutes the frozen claims about them.

Modelling conventions:
* A Python `frozenset` becomes a `Finset`; a `collections.Counter` of
  hyperedges becomes a `Multiset` (Counter equality is multiset equality,
  and multiplicities are element counts).
* Iteration order of Python sets and dicts is implementation defined; any
  function whose result depends on that order takes the order as an
  explicit parameter (a list enumerating the set), or is packaged behind
  a `Choice` structure whose propositional fields record exactly what the
  source guarantees regardless of the order (e.g. `min`/`max` picks).
* Functions that can raise return `Except String` / `Option`.
* The external `pysat` Minisat oracle is not part of the repository; it is
  modelled from the spec as a decision procedure for CNF satisfiability
  (`cnf_sat`), the single predicate the spec assumes of it.
-/

namespace Graphsat

/-- A literal, mirroring `graphsat/cnf.py`: `Lit.value : int | Bool`.
Equality is by tag and value (`Bool.__eq__` on an `int` is `False`). -/
inductive Lit where
  | int : ℤ → Lit
  | bool : Bool → Lit
deriving DecidableEq, Repr

/-- `Clause` is a frozenset of literals (`class Clause(frozenset[Lit])`). -/
abbrev Clause := Finset Lit

/-- `Cnf` is a frozenset of clauses (`class Cnf(frozenset[Clause])`). -/
abbrev Cnf := Finset Clause

/-- `TRUE_CLAUSE = clause([Bool.TRUE])`. -/
def TRUE_CLAUSE : Clause := {Lit.bool true}

/-- `FALSE_CLAUSE = clause([Bool.FALSE])`. -/
def FALSE_CLAUSE : Clause := {Lit.bool false}

/-- `TRUE_CNF = cnf([[Bool.TRUE]])`. -/
def TRUE_CNF : Cnf := {TRUE_CLAUSE}

/-- `FALSE_CNF = cnf([[Bool.FALSE]])`. -/
def FALSE_CNF : Cnf := {FALSE_CLAUSE}

/-- `neg` from `graphsat/cnf.py`: swap the Bool constants, negate ints. -/
def neg : Lit → Lit
  | Lit.int n => Lit.int (-n)
  | Lit.bool b => Lit.bool (!b)

/-- `absolute_value` from `graphsat/cnf.py`: Bools go to `TRUE`, ints to
their absolute value. -/
def absolute_value : Lit → Lit
  | Lit.int n => Lit.int |n|
  | Lit.bool _ => Lit.bool true

/-- `cnf_and_cnf(c1, c2) = cnf(c1 | c2)` from `prop.py`: conjunction of two
Cnfs is the union of their clause sets. -/
def cnf_and_cnf (c1 c2 : Cnf) : Cnf := c1 ∪ c2

/-- `tautologically_reduce_clause` from `cnf.py`, rules in order:
TRUE member absorbs; the singleton FALSE clause is itself; FALSE members
are dropped; a complementary pair produces TRUE. -/
def tautologically_reduce_clause (cl : Clause) : Clause :=
  if Lit.bool true ∈ cl then TRUE_CLAUSE
  else if cl = FALSE_CLAUSE then FALSE_CLAUSE
  else if ¬ Disjoint ((cl.erase (Lit.bool false)).image neg)
      (cl.erase (Lit.bool false)) then TRUE_CLAUSE
  else cl.erase (Lit.bool false)

/-- `tautologically_reduce_cnf` from `cnf.py`: reduce every clause; a FALSE
clause collapses the Cnf; a Cnf equal to `{TRUE}` is TRUE; other TRUE
clauses are dropped and the reduction recurses. -/
def tautologically_reduce_cnf (c : Cnf) : Cnf :=
  if FALSE_CLAUSE ∈ c.image tautologically_reduce_clause then FALSE_CNF
  else if c.image tautologically_reduce_clause = TRUE_CNF then TRUE_CNF
  else if h : TRUE_CLAUSE ∈ c.image tautologically_reduce_clause then
    tautologically_reduce_cnf
      ((c.image tautologically_reduce_clause).erase TRUE_CLAUSE)
  else c.image tautologically_reduce_clause
termination_by c.card
decreasing_by
  calc ((c.image tautologically_reduce_clause).erase TRUE_CLAUSE).card
      < (c.image tautologically_reduce_clause).card :=
        Finset.card_erase_lt_of_mem h
    _ ≤ c.card := Finset.card_image_le

/-- Sorting a multiset into a list with an insertion sort: the sort is
permutation invariant for an antisymmetric total transitive relation, so
it lifts to the quotient.  (Kernel-reducible counterpart of the library
merge sort; used wherever the source iterates a set in its arbitrary
order and the result is order independent.) -/
def msort {α : Type} (r : α → α → Prop) [DecidableRel r] [IsTrans α r]
    [IsAntisymm α r] [IsTotal α r] (s : Multiset α) : List α :=
  Quot.liftOn s (List.insertionSort r)
    (fun _ _ hp => List.eq_of_perm_of_sorted
      ((List.perm_insertionSort r _).trans
        (hp.trans (List.perm_insertionSort r _).symm))
      (List.sorted_insertionSort r _) (List.sorted_insertionSort r _))

lemma msort_perm {α : Type} (r : α → α → Prop) [DecidableRel r] [IsTrans α r]
    [IsAntisymm α r] [IsTotal α r] (s : Multiset α) :
    (msort r s : Multiset α) = s := by
  induction s using Quot.inductionOn with
  | h l => exact Quot.sound (List.perm_insertionSort r l)

lemma mem_msort {α : Type} {r : α → α → Prop} [DecidableRel r] [IsTrans α r]
    [IsAntisymm α r] [IsTotal α r] {s : Multiset α} {a : α} :
    a ∈ msort r s ↔ a ∈ s := by
  rw [← Multiset.mem_coe, msort_perm]

lemma msort_nodup {α : Type} {r : α → α → Prop} [DecidableRel r] [IsTrans α r]
    [IsAntisymm α r] [IsTotal α r] {s : Multiset α} (hs : s.Nodup) :
    (msort r s).Nodup := by
  have : Multiset.Nodup (msort r s : Multiset α) := by
    rw [msort_perm]; exact hs
  exact this

lemma msort_length {α : Type} (r : α → α → Prop) [DecidableRel r] [IsTrans α r]
    [IsAntisymm α r] [IsTotal α r] (s : Multiset α) :
    (msort r s).length = Multiset.card s := by
  have := congrArg Multiset.card (msort_perm r s)
  simpa using this

/-- Truth-value of a literal under an assignment of the variables
(positive integers) to Booleans.  `Lit.int n` reads the variable `|n|`
with the sign of `n`; Bool literals are constants. -/
def evalLit (σ : ℤ → Bool) : Lit → Bool
  | Lit.int n => if 0 < n then σ n else !σ (-n)
  | Lit.bool b => b

/-- A clause is a disjunction of its literals. -/
def evalClause (σ : ℤ → Bool) (cl : Clause) : Bool :=
  decide (∃ l ∈ cl, evalLit σ l = true)

/-- A Cnf is a conjunction of its clauses. -/
def evalCnf (σ : ℤ → Bool) (c : Cnf) : Bool :=
  decide (∀ cl ∈ c, evalClause σ cl = true)

/-- The variables (as positive integers) appearing in a Cnf. -/
def varsOfCnf (c : Cnf) : Finset ℤ :=
  c.sup (fun cl => cl.image (fun l => match l with
    | Lit.int n => |n|
    | Lit.bool _ => 0))

/-- Point-update of an assignment. -/
def updAssign (σ : ℤ → Bool) (v : ℤ) (b : Bool) : ℤ → Bool :=
  fun x => if x = v then b else σ x

/-- All assignments of the given variables (other variables read `false`). -/
def allAssignments : List ℤ → List (ℤ → Bool)
  | [] => [fun _ => false]
  | v :: vs =>
      (allAssignments vs).flatMap
        (fun σ => [updAssign σ v true, updAssign σ v false])

/-- Modelled from the spec: the external Minisat-class oracle behind
`cnf_pysat_satcheck` (the `pysat` library is not part of the repository);
the spec assumes of it exactly "is this CNF satisfiable?".  Decided here
by enumerating assignments of the variables of the Cnf. -/
def cnf_sat (c : Cnf) : Bool :=
  (allAssignments (msort (· ≤ ·) (varsOfCnf c).val)).any (fun σ => evalCnf σ c)

/-- Satisfiability as a proposition. -/
def CnfSatisfiable (c : Cnf) : Prop := ∃ σ : ℤ → Bool, evalCnf σ c = true

lemma evalClause_iff (σ : ℤ → Bool) (cl : Clause) :
    evalClause σ cl = true ↔ ∃ l ∈ cl, evalLit σ l = true := by
  simp [evalClause]

lemma evalCnf_iff (σ : ℤ → Bool) (c : Cnf) :
    evalCnf σ c = true ↔ ∀ cl ∈ c, evalClause σ cl = true := by
  simp [evalCnf]

/-- Monotonicity: a Cnf with more clauses is harder to satisfy. -/
lemma evalCnf_subset {σ : ℤ → Bool} {c c' : Cnf} (hsub : c ⊆ c')
    (h : evalCnf σ c' = true) : evalCnf σ c = true := by
  rw [evalCnf_iff] at h ⊢
  exact fun cl hcl => h cl (hsub hcl)

/-- `cnf_sat` is sound: a `true` answer yields a satisfying assignment. -/
lemma cnf_sat_sound {c : Cnf} (h : cnf_sat c = true) : CnfSatisfiable c := by
  rcases List.any_eq_true.mp h with ⟨σ, _, hσ⟩
  exact ⟨σ, hσ⟩

/-- A vertex is a positive integer (`graph.py`). -/
abbrev Vertex := ℕ

/-- An `HEdge` is a frozenset of vertices (`mhgraph.py`). -/
abbrev HEdge := Finset ℕ

/-- An `MHGraph` is a `Counter` of hyperedges; a Counter with positive
counts is exactly a multiset, and Counter equality is multiset equality. -/
abbrev MHGraph := Multiset HEdge

/-- The constructor invariants of `mhgraph.py`: graphs are non-empty,
hyperedges are non-empty and vertices are positive. -/
def WfGraph (G : MHGraph) : Prop :=
  G ≠ 0 ∧ ∀ h ∈ G, h.Nonempty ∧ ∀ v ∈ h, 0 < v

/-- `vertices(mhg) = frozenset.union(*mhg)`. -/
def vertices (G : MHGraph) : Finset ℕ := G.toFinset.sup id

/-- `degree(v, mhg)`: sum of multiplicities of hyperedges containing `v`. -/
def degree (v : ℕ) (G : MHGraph) : ℕ := (G.filter (fun h => v ∈ h)).card

/-- `star(mhg, v)`: all hyperedge occurrences incident at `v`. -/
def star (G : MHGraph) (v : ℕ) : Multiset HEdge := G.filter (fun h => v ∈ h)

/-- `link(mhg, v)`: the star with `v` removed from each hyperedge, the
loop at `v` being dropped. -/
def link (G : MHGraph) (v : ℕ) : Multiset HEdge :=
  ((star G v).filter (fun h => h ≠ {v})).map (fun h => h.erase v)

/-- `sphr(mhg, v)`: all hyperedge occurrences avoiding `v`. -/
def sphr (G : MHGraph) (v : ℕ) : Multiset HEdge := G.filter (fun h => v ∉ h)

/-- `graph_union`: multiset sum (tuple concatenation fed to the Counter
constructor). -/
def graph_union (G1 G2 : Multiset HEdge) : MHGraph := G1 + G2

/-- `is_oversaturated(mhg)` from `sat.py` / `translation.py`: some edge of
size `n` has multiplicity more than `2^n`. -/
def is_oversaturated (G : MHGraph) : Bool :=
  decide (∃ h ∈ G.toFinset, 2 ^ h.card < G.count h)

/-- The sorted vertex list of a hyperedge, used as a canonical sort key. -/
def hkey (h : HEdge) : List ℕ := msort (· ≤ ·) h.val

/-- Ordering of hyperedges by their sorted vertex lists.  Python dicts
iterate in an implementation-defined order; results below never depend on
the order, and this canonical one keeps the embedding executable. -/
def hedgeR (a b : HEdge) : Prop := hkey a ≤ hkey b

instance : DecidableRel hedgeR := fun a b =>
  inferInstanceAs (Decidable (hkey a ≤ hkey b))

lemma hkey_toFinset (h : HEdge) : (hkey h).toFinset = h := by
  ext x
  rw [List.mem_toFinset, hkey, mem_msort]
  exact Iff.rfl

lemma hkey_injective : Function.Injective hkey := by
  intro a b hab
  rw [← hkey_toFinset a, ← hkey_toFinset b, hab]

instance : IsTrans HEdge hedgeR :=
  ⟨fun _ _ _ hab hbc => le_trans hab hbc⟩

instance : IsAntisymm HEdge hedgeR :=
  ⟨fun _ _ hab hba => hkey_injective (le_antisymm hab hba)⟩

instance : IsTotal HEdge hedgeR :=
  ⟨fun a b => le_total (hkey a) (hkey b)⟩

/-- `mhg.items()`: the distinct hyperedges with their multiplicities, in
the canonical order. -/
def items (G : MHGraph) : List (HEdge × ℕ) :=
  (msort hedgeR G.toFinset.val).map (fun h => (h, G.count h))

/-- `mhg.elements()`: the hyperedge occurrences as a list, in the
canonical order. -/
def elementsList (G : MHGraph) : List HEdge :=
  (items G).flatMap (fun p => List.replicate p.2 p.1)

/-- All sign patterns over a list of vertices, positive sign first
(`it.product` over `(lit(v), neg(lit(v)))` pairs). -/
def signCombos : List ℕ → List (List Lit)
  | [] => [[]]
  | v :: vs =>
      ([Lit.int (v : ℤ), Lit.int (-(v : ℤ))]).flatMap
        (fun s => (signCombos vs).map (fun cl => s :: cl))

/-- `clauses_from_hedge(hedge)`: the `2^|hedge|` clauses supported on a
hyperedge, one literal of either sign per vertex. -/
def clauses_from_hedge (h : HEdge) : List Clause :=
  (signCombos (hkey h)).map List.toFinset

/-- `cnfs_from_hedge(hedge, multiplicity)` from `translation.py`:
all choices of `multiplicity` distinct clauses supported on the hyperedge.
`it.combinations` raises `ValueError` on a negative count; a zero count
produces one empty choice on which the `cnf` constructor raises
`ValueError` (at the first element of the returned iterator). -/
def cnfs_from_hedge (h : HEdge) (m : ℤ) : Except String (List Cnf) :=
  if m < 0 then .error "r must be non-negative"
  else if m = 0 then .error "Encountered empty input"
  else .ok ((List.sublistsLen m.toNat (clauses_from_hedge h)).map List.toFinset)

/-- The total branch of `cnfs_from_hedge` used with Counter
multiplicities, which are always at least 1. -/
def cnfs_from_hedgeN (h : HEdge) (m : ℕ) : List Cnf :=
  (List.sublistsLen m (clauses_from_hedge h)).map List.toFinset

lemma cnfs_from_hedge_pos (h : HEdge) (m : ℕ) (hm : 0 < m) :
    cnfs_from_hedge h (m : ℤ) = .ok (cnfs_from_hedgeN h m) := by
  have h1 : ¬((m : ℤ) < 0) := by
    simp
  have h2 : (m : ℤ) ≠ 0 := by exact_mod_cast hm.ne'
  simp [cnfs_from_hedge, cnfs_from_hedgeN, h1, h2]

/-- The Cartesian product over the items of a Counter, each factor being
the clause-choices of one hyperedge, combined by union
(`it.starmap(frozenset.union, it.product(*cnf_iterators))`). -/
def cnfsFromItems : List (HEdge × ℕ) → List Cnf
  | [] => [∅]
  | (h, m) :: rest =>
      (cnfs_from_hedgeN h m).flatMap
        (fun x => (cnfsFromItems rest).map (fun y => x ∪ y))

/-- `cnfs_from_mhgraph(mhg)` from `translation.py` / `sat.py` with
`randomize=False`; randomization permutes the same underlying sequence
and every property below is permutation invariant. -/
def cnfs_from_mhgraph (G : MHGraph) : List Cnf := cnfsFromItems (items G)

/-- `number_of_cnfs(mhg)`: the product over the items of `C(2^|h|, m)`. -/
def number_of_cnfs (G : MHGraph) : ℕ :=
  ((items G).map (fun p => Nat.choose (2 ^ p.1.card) p.2)).prod

/-- The variable of a literal, `absolute_value` composed with the
Vertex coercion used by `mhgraph_from_cnf`. -/
def litVar : Lit → ℕ
  | Lit.int n => n.natAbs
  | Lit.bool _ => 0

/-- The variables of a clause as a vertex set. -/
def varsOfClause (cl : Clause) : Finset ℕ := cl.image litVar

lemma signCombos_length (l : List ℕ) : (signCombos l).length = 2 ^ l.length := by
  induction l with
  | nil => simp [signCombos]
  | cons v vs ih =>
      simp [signCombos, ih, List.length_flatMap]
      ring

lemma mem_signCombos_cons {v : ℕ} {vs : List ℕ} {c : List Lit} :
    c ∈ signCombos (v :: vs) ↔
      ∃ c' ∈ signCombos vs,
        c = Lit.int v :: c' ∨ c = Lit.int (-(v : ℤ)) :: c' := by
  simp only [signCombos, List.flatMap_cons, List.flatMap_nil, List.append_nil,
    List.mem_append, List.mem_map]
  constructor
  · rintro (⟨c', hc', rfl⟩ | ⟨c', hc', rfl⟩)
    · exact ⟨c', hc', Or.inl rfl⟩
    · exact ⟨c', hc', Or.inr rfl⟩
  · rintro ⟨c', hc', (rfl | rfl)⟩
    · exact Or.inl ⟨c', hc', rfl⟩
    · exact Or.inr ⟨c', hc', rfl⟩

lemma signCombos_vars {l : List ℕ} (hpos : ∀ v ∈ l, 0 < v) :
    ∀ c ∈ signCombos l, c.map litVar = l := by
  induction l with
  | nil => intro c hc; simp [signCombos] at hc; simp [hc]
  | cons v vs ih =>
      intro c hc
      rcases mem_signCombos_cons.mp hc with ⟨c', hc', (rfl | rfl)⟩
      · simp [litVar, ih (fun u hu => hpos u (List.mem_cons_of_mem _ hu)) c' hc']
      · simp [litVar, ih (fun u hu => hpos u (List.mem_cons_of_mem _ hu)) c' hc']

lemma signCombos_all_int {l : List ℕ} :
    ∀ c ∈ signCombos l, ∀ x ∈ c,
      ∃ v ∈ l, x = Lit.int v ∨ x = Lit.int (-(v : ℤ)) := by
  induction l with
  | nil => intro c hc; simp [signCombos] at hc; simp [hc]
  | cons v vs ih =>
      intro c hc x hx
      rcases mem_signCombos_cons.mp hc with ⟨c', hc', (rfl | rfl)⟩ <;>
        rcases List.mem_cons.mp hx with rfl | hx'
      · exact ⟨v, List.mem_cons_self _ _, Or.inl rfl⟩
      · obtain ⟨u, hu, hor⟩ := ih c' hc' x hx'
        exact ⟨u, List.mem_cons_of_mem _ hu, hor⟩
      · exact ⟨v, List.mem_cons_self _ _, Or.inr rfl⟩
      · obtain ⟨u, hu, hor⟩ := ih c' hc' x hx'
        exact ⟨u, List.mem_cons_of_mem _ hu, hor⟩

/-- For any assignment there is a sign pattern all of whose literals are
false: pick the sign opposing the assignment at each vertex. -/
lemma signCombos_opposing {l : List ℕ} (hpos : ∀ v ∈ l, 0 < v)
    (σ : ℤ → Bool) :
    ∃ c ∈ signCombos l, ∀ x ∈ c, evalLit σ x = false := by
  induction l with
  | nil => exact ⟨[], by simp [signCombos], by simp⟩
  | cons v vs ih =>
      obtain ⟨c', hc', hfalse⟩ := ih (fun u hu => hpos u (List.mem_cons_of_mem _ hu))
      have hv : 0 < v := hpos v (List.mem_cons_self _ _)
      by_cases hσ : σ (v : ℤ) = true
      · refine ⟨Lit.int (-(v : ℤ)) :: c',
          mem_signCombos_cons.mpr ⟨c', hc', Or.inr rfl⟩, ?_⟩
        intro x hx
        rcases List.mem_cons.mp hx with rfl | hx'
        · have hneg : ¬(0 : ℤ) < -(v : ℤ) := by
            simp
          simp [evalLit, hneg, hσ]
        · exact hfalse x hx'
      · refine ⟨Lit.int (v : ℤ) :: c',
          mem_signCombos_cons.mpr ⟨c', hc', Or.inl rfl⟩, ?_⟩
        intro x hx
        rcases List.mem_cons.mp hx with rfl | hx'
        · have hvz : (0 : ℤ) < (v : ℤ) := by exact_mod_cast hv
          simpa [evalLit, hvz] using hσ
        · exact hfalse x hx'

lemma int_pos_ne_neg {u v : ℕ} (hu : 0 < u) :
    Lit.int (u : ℤ) ≠ Lit.int (-(v : ℤ)) := by
  intro h
  have : (u : ℤ) = -(v : ℤ) := by injection h
  omega

/-- Literal membership in a sign pattern forces the variable into the
vertex list. -/
lemma litVar_mem_of_mem_signCombos {l : List ℕ} (hpos : ∀ v ∈ l, 0 < v)
    {c : List Lit} (hc : c ∈ signCombos l) {x : Lit} (hx : x ∈ c) :
    litVar x ∈ l := by
  have h := signCombos_vars hpos c hc
  rw [← h]
  exact List.mem_map_of_mem litVar hx

lemma int_notMem_of_litVar {l : List ℕ} (hpos : ∀ v ∈ l, 0 < v)
    {c : List Lit} (hc : c ∈ signCombos l) {v : ℕ} (hv : v ∉ l) :
    Lit.int (v : ℤ) ∉ c.toFinset ∧ Lit.int (-(v : ℤ)) ∉ c.toFinset := by
  constructor <;> intro hmem <;> rw [List.mem_toFinset] at hmem <;>
    refine hv ?_
  · have := litVar_mem_of_mem_signCombos hpos hc hmem
    simpa [litVar] using this
  · have := litVar_mem_of_mem_signCombos hpos hc hmem
    simpa [litVar] using this

/-- Distinct sign patterns have distinct literal sets. -/
lemma signCombos_toFinset_nodup {l : List ℕ} (hl : l.Nodup)
    (hpos : ∀ v ∈ l, 0 < v) :
    ((signCombos l).map List.toFinset).Nodup := by
  induction l with
  | nil => simp [signCombos]
  | cons v vs ih =>
      have hv : 0 < v := hpos v (List.mem_cons_self _ _)
      have hvs : v ∉ vs := (List.nodup_cons.mp hl).1
      have hposvs : ∀ u ∈ vs, 0 < u :=
        fun u hu => hpos u (List.mem_cons_of_mem _ hu)
      have ihn := ih (List.nodup_cons.mp hl).2 hposvs
      have key : ∀ (s : Lit), (s = Lit.int (v : ℤ) ∨ s = Lit.int (-(v : ℤ))) →
          ∀ c' ∈ signCombos vs, ∀ c'' ∈ signCombos vs,
            insert s c'.toFinset = insert s c''.toFinset →
            c'.toFinset = c''.toFinset := by
        intro s hs c' hc' c'' hc'' heq
        have hns' : s ∉ c'.toFinset := by
          rcases hs with rfl | rfl
          · exact (int_notMem_of_litVar hposvs hc' hvs).1
          · exact (int_notMem_of_litVar hposvs hc' hvs).2
        have hns'' : s ∉ c''.toFinset := by
          rcases hs with rfl | rfl
          · exact (int_notMem_of_litVar hposvs hc'' hvs).1
          · exact (int_notMem_of_litVar hposvs hc'' hvs).2
        have h1 : (insert s c'.toFinset).erase s = c'.toFinset :=
          Finset.erase_insert hns'
        have h2 : (insert s c''.toFinset).erase s = c''.toFinset :=
          Finset.erase_insert hns''
        rw [← h1, ← h2, heq]
      have expand : (signCombos (v :: vs)).map List.toFinset =
          ((signCombos vs).map
            (fun c => insert (Lit.int (v : ℤ)) c.toFinset)) ++
          ((signCombos vs).map
            (fun c => insert (Lit.int (-(v : ℤ))) c.toFinset)) := by
        simp only [signCombos, List.flatMap_cons, List.flatMap_nil,
          List.append_nil, List.map_append, List.map_map]
        congr 1 <;> · apply List.map_congr_left; intro c _; simp
      have expand2 : ∀ s : Lit,
          (signCombos vs).map (fun c => insert s c.toFinset) =
          ((signCombos vs).map List.toFinset).map (fun F => insert s F) := by
        intro s; rw [List.map_map]; rfl
      rw [expand]
      rw [List.nodup_append]
      refine ⟨?_, ?_, ?_⟩
      · rw [expand2]
        refine List.Nodup.map_on ?_ ihn
        intro F hF F' hF' heq
        rcases List.mem_map.mp hF with ⟨c', hc', rfl⟩
        rcases List.mem_map.mp hF' with ⟨c'', hc'', rfl⟩
        exact key _ (Or.inl rfl) c' hc' c'' hc'' heq
      · rw [expand2]
        refine List.Nodup.map_on ?_ ihn
        intro F hF F' hF' heq
        rcases List.mem_map.mp hF with ⟨c', hc', rfl⟩
        rcases List.mem_map.mp hF' with ⟨c'', hc'', rfl⟩
        exact key _ (Or.inr rfl) c' hc' c'' hc'' heq
      · intro S hS1 hS2
        rcases List.mem_map.mp hS1 with ⟨c', hc', rfl⟩
        rcases List.mem_map.mp hS2 with ⟨c'', hc'', heq⟩
        have hmem : Lit.int (v : ℤ) ∈
            insert (Lit.int (-(v : ℤ))) c''.toFinset := by
          rw [heq]; exact Finset.mem_insert_self _ _
        rcases Finset.mem_insert.mp hmem with hbad | hbad
        · exact int_pos_ne_neg hv hbad
        · exact (int_notMem_of_litVar hposvs hc'' hvs).1 hbad

/-- Converse construction: any set of literals that picks exactly one
sign for each vertex of `l` and nothing else is a sign pattern. -/
lemma signCombos_of_props {l : List ℕ} (hl : l.Nodup)
    (hpos : ∀ v ∈ l, 0 < v) (S : Clause)
    (h1 : ∀ x ∈ S, ∃ v ∈ l, x = Lit.int (v : ℤ) ∨ x = Lit.int (-(v : ℤ)))
    (h2 : ∀ v ∈ l, ¬(Lit.int (v : ℤ) ∈ S ∧ Lit.int (-(v : ℤ)) ∈ S))
    (h3 : ∀ v ∈ l, Lit.int (v : ℤ) ∈ S ∨ Lit.int (-(v : ℤ)) ∈ S) :
    ∃ c ∈ signCombos l, c.toFinset = S := by
  induction l generalizing S with
  | nil =>
      refine ⟨[], by simp [signCombos], ?_⟩
      have : S = ∅ := by
        by_contra hne
        obtain ⟨x, hx⟩ := Finset.nonempty_of_ne_empty hne
        obtain ⟨v, hv, _⟩ := h1 x hx
        exact absurd hv (List.not_mem_nil v)
      simp [this]
  | cons v vs ih =>
      have hv : 0 < v := hpos v (List.mem_cons_self _ _)
      have hvvs : v ∉ vs := (List.nodup_cons.mp hl).1
      have hposvs : ∀ u ∈ vs, 0 < u :=
        fun u hu => hpos u (List.mem_cons_of_mem _ hu)
      have hne : ∀ u ∈ vs, Lit.int (u : ℤ) ≠ Lit.int (v : ℤ) ∧
          Lit.int (u : ℤ) ≠ Lit.int (-(v : ℤ)) ∧
          Lit.int (-(u : ℤ)) ≠ Lit.int (v : ℤ) ∧
          Lit.int (-(u : ℤ)) ≠ Lit.int (-(v : ℤ)) := by
        intro u hu
        have hu0 : 0 < u := hposvs u hu
        have huv : u ≠ v := fun h => hvvs (h ▸ hu)
        refine ⟨?_, ?_, ?_, ?_⟩ <;> intro h
        · have : (u : ℤ) = (v : ℤ) := by injection h
          exact huv (by exact_mod_cast this)
        · have : (u : ℤ) = -(v : ℤ) := by injection h
          omega
        · have : -(u : ℤ) = (v : ℤ) := by injection h
          omega
        · have : -(u : ℤ) = -(v : ℤ) := by injection h
          exact huv (by omega)
      rcases h3 v (List.mem_cons_self _ _) with hvin | hvin
      · set S' := S.erase (Lit.int (v : ℤ)) with hS'
        have hsub : ∀ x ∈ S', x ∈ S := fun x hx => Finset.mem_of_mem_erase hx
        obtain ⟨c', hc', hc'eq⟩ := ih (List.nodup_cons.mp hl).2 hposvs S'
          (by
            intro x hx
            obtain ⟨u, hu, hor⟩ := h1 x (hsub x hx)
            rcases List.mem_cons.mp hu with rfl | hu'
            · exfalso
              rcases hor with rfl | rfl
              · exact (Finset.ne_of_mem_erase hx) rfl
              · exact h2 u (List.mem_cons_self _ _) ⟨hvin, hsub _ hx⟩
            · exact ⟨u, hu', hor⟩)
          (by
            intro u hu ⟨ha, hb⟩
            exact h2 u (List.mem_cons_of_mem _ hu) ⟨hsub _ ha, hsub _ hb⟩)
          (by
            intro u hu
            obtain ⟨h1u, h2u, h3u, h4u⟩ := hne u hu
            rcases h3 u (List.mem_cons_of_mem _ hu) with hin | hin
            · exact Or.inl (Finset.mem_erase.mpr ⟨h1u, hin⟩)
            · exact Or.inr (Finset.mem_erase.mpr ⟨h3u, hin⟩))
        refine ⟨Lit.int (v : ℤ) :: c',
          mem_signCombos_cons.mpr ⟨c', hc', Or.inl rfl⟩, ?_⟩
        rw [List.toFinset_cons, hc'eq, hS', Finset.insert_erase hvin]
      · set S' := S.erase (Lit.int (-(v : ℤ))) with hS'
        have hsub : ∀ x ∈ S', x ∈ S := fun x hx => Finset.mem_of_mem_erase hx
        have hvpos : Lit.int (v : ℤ) ∉ S := by
          intro hbad
          exact h2 v (List.mem_cons_self _ _) ⟨hbad, hvin⟩
        obtain ⟨c', hc', hc'eq⟩ := ih (List.nodup_cons.mp hl).2 hposvs S'
          (by
            intro x hx
            obtain ⟨u, hu, hor⟩ := h1 x (hsub x hx)
            rcases List.mem_cons.mp hu with rfl | hu'
            · exfalso
              rcases hor with rfl | rfl
              · exact hvpos (hsub _ hx)
              · exact (Finset.ne_of_mem_erase hx) rfl
            · exact ⟨u, hu', hor⟩)
          (by
            intro u hu ⟨ha, hb⟩
            exact h2 u (List.mem_cons_of_mem _ hu) ⟨hsub _ ha, hsub _ hb⟩)
          (by
            intro u hu
            obtain ⟨h1u, h2u, h3u, h4u⟩ := hne u hu
            rcases h3 u (List.mem_cons_of_mem _ hu) with hin | hin
            · exact Or.inl (Finset.mem_erase.mpr ⟨h2u, hin⟩)
            · exact Or.inr (Finset.mem_erase.mpr ⟨h4u, hin⟩))
        refine ⟨Lit.int (-(v : ℤ)) :: c',
          mem_signCombos_cons.mpr ⟨c', hc', Or.inr rfl⟩, ?_⟩
        rw [List.toFinset_cons, hc'eq, hS', Finset.insert_erase hvin]

lemma clauses_from_hedge_length (h : HEdge) :
    (clauses_from_hedge h).length = 2 ^ h.card := by
  rw [clauses_from_hedge, List.length_map, signCombos_length, hkey,
    msort_length]
  rfl

lemma sort_pos {h : HEdge} (hpos : ∀ v ∈ h, 0 < v) :
    ∀ v ∈ hkey h, 0 < v := by
  intro v hv
  rw [hkey, mem_msort] at hv
  exact hpos v hv

lemma clauses_from_hedge_nodup {h : HEdge} (hpos : ∀ v ∈ h, 0 < v) :
    (clauses_from_hedge h).Nodup :=
  signCombos_toFinset_nodup (msort_nodup h.nodup) (sort_pos hpos)

lemma mem_clauses_from_hedge {h : HEdge} {S : Clause} :
    S ∈ clauses_from_hedge h ↔
      ∃ c ∈ signCombos (hkey h), c.toFinset = S := by
  simp [clauses_from_hedge]

lemma varsOfClause_of_mem {h : HEdge} (hpos : ∀ v ∈ h, 0 < v)
    {S : Clause} (hS : S ∈ clauses_from_hedge h) : varsOfClause S = h := by
  obtain ⟨c, hc, rfl⟩ := mem_clauses_from_hedge.mp hS
  have hvars := signCombos_vars (sort_pos hpos) c hc
  have himg : (c.toFinset).image litVar = (c.map litVar).toFinset := by
    ext x; simp
  rw [varsOfClause, himg, hvars]
  exact hkey_toFinset h

/-- Every assignment falsifies some clause supported on `h`. -/
lemma opposing_clause {h : HEdge} (hpos : ∀ v ∈ h, 0 < v) (σ : ℤ → Bool) :
    ∃ S ∈ clauses_from_hedge h, evalClause σ S = false := by
  obtain ⟨c, hc, hfalse⟩ := signCombos_opposing (sort_pos hpos) σ
  refine ⟨c.toFinset, mem_clauses_from_hedge.mpr ⟨c, hc, rfl⟩, ?_⟩
  rw [Bool.eq_false_iff]
  intro htrue
  obtain ⟨x, hx, hxval⟩ := (evalClause_iff σ _).mp htrue
  rw [List.mem_toFinset] at hx
  rw [hfalse x hx] at hxval
  exact Bool.false_ne_true hxval

/-- A Cnf containing every clause supported on some hyperedge is
unsatisfiable: whatever the assignment, the opposing clause fails. -/
lemma unsat_of_all_clauses {h : HEdge} (hpos : ∀ v ∈ h, 0 < v)
    {x : Cnf} (hsub : ∀ S ∈ clauses_from_hedge h, S ∈ x) (σ : ℤ → Bool) :
    evalCnf σ x = false := by
  obtain ⟨S, hS, hSfalse⟩ := opposing_clause hpos σ
  rw [Bool.eq_false_iff]
  intro htrue
  have := (evalCnf_iff σ x).mp htrue S (hsub S hS)
  rw [hSfalse] at this
  exact Bool.false_ne_true this

lemma cnf_sat_false_of_all_clauses {h : HEdge} (hpos : ∀ v ∈ h, 0 < v)
    {x : Cnf} (hsub : ∀ S ∈ clauses_from_hedge h, S ∈ x) :
    cnf_sat x = false := by
  rw [Bool.eq_false_iff]
  intro htrue
  obtain ⟨σ, hσ⟩ := cnf_sat_sound htrue
  rw [unsat_of_all_clauses hpos hsub σ] at hσ
  exact Bool.false_ne_true hσ

lemma mem_cnfs_from_hedgeN {h : HEdge} {m : ℕ} {x : Cnf}
    (hx : x ∈ cnfs_from_hedgeN h m) :
    ∃ l, l ∈ List.sublistsLen m (clauses_from_hedge h) ∧ x = l.toFinset := by
  rcases List.mem_map.mp hx with ⟨l, hl, rfl⟩
  exact ⟨l, hl, rfl⟩

lemma cnfs_from_hedgeN_card {h : HEdge} (hpos : ∀ v ∈ h, 0 < v)
    {m : ℕ} {x : Cnf} (hx : x ∈ cnfs_from_hedgeN h m) :
    x.card = m ∧ ∀ cl ∈ x, cl ∈ clauses_from_hedge h := by
  obtain ⟨l, hl, rfl⟩ := mem_cnfs_from_hedgeN hx
  obtain ⟨hsub, hlen⟩ := List.mem_sublistsLen.mp hl
  have hnodup : l.Nodup := hsub.nodup (clauses_from_hedge_nodup hpos)
  constructor
  · rw [List.toFinset_card_of_nodup hnodup, hlen]
  · intro cl hcl
    exact hsub.subset (List.mem_toFinset.mp hcl)

/-- The fully saturated choice is unique: with multiplicity `2^|h|` the
only supported Cnf takes every clause on `h`. -/
lemma cnfs_from_hedgeN_saturated {h : HEdge} {m : ℕ}
    (hm : m = 2 ^ h.card) {x : Cnf} (hx : x ∈ cnfs_from_hedgeN h m) :
    ∀ S ∈ clauses_from_hedge h, S ∈ x := by
  obtain ⟨l, hl, rfl⟩ := mem_cnfs_from_hedgeN hx
  obtain ⟨hsub, hlen⟩ := List.mem_sublistsLen.mp hl
  have hfull : l = clauses_from_hedge h := by
    refine hsub.eq_of_length ?_
    rw [hlen, hm, clauses_from_hedge_length]
  intro S hS
  rw [hfull] at *
  exact List.mem_toFinset.mpr hS

lemma cnfs_from_hedgeN_length (h : HEdge) (m : ℕ) :
    (cnfs_from_hedgeN h m).length = Nat.choose (2 ^ h.card) m := by
  rw [cnfs_from_hedgeN, List.length_map, List.length_sublistsLen,
    clauses_from_hedge_length]

lemma cnfs_from_hedgeN_ne_nil {h : HEdge} {m : ℕ} (hm : m ≤ 2 ^ h.card) :
    cnfs_from_hedgeN h m ≠ [] := by
  intro hnil
  have := cnfs_from_hedgeN_length h m
  rw [hnil] at this
  simp only [List.length_nil] at this
  exact absurd (Nat.choose_pos hm) (by omega)

lemma cnfs_from_hedgeN_eq_nil {h : HEdge} {m : ℕ} (hm : 2 ^ h.card < m) :
    cnfs_from_hedgeN h m = [] := by
  rw [cnfs_from_hedgeN, List.sublistsLen_of_length_lt]
  · rfl
  · rw [clauses_from_hedge_length]; exact hm

/-- Claim C8: for `1 ≤ m ≤ 2^|h|`, `cnfs_from_hedge(h, m)` yields exactly
`C(2^|h|, m)` Cnfs, each consisting of `m` distinct clauses supported on
`h`; for `m > 2^|h|` it yields an empty sequence; for `m < 1` it fails
with a `ValueError` (negative `m` at `it.combinations`; `m = 0` at the
`cnf` constructor when the iterator is consumed). -/
theorem claim_C8_cnfs_from_hedge (h : HEdge) (m : ℤ)
    (hpos : ∀ v ∈ h, 0 < v) :
    (1 ≤ m → ∃ L, cnfs_from_hedge h m = Except.ok L ∧
        L.length = Nat.choose (2 ^ h.card) m.toNat ∧
        ((2 : ℤ) ^ h.card < m → L = []) ∧
        ∀ x ∈ L, x.card = m.toNat ∧
          ∀ cl ∈ x, cl ∈ clauses_from_hedge h) ∧
    (m < 1 → ∃ msg, cnfs_from_hedge h m = Except.error msg) := by
  constructor
  · intro hm
    have hmn : 0 < m.toNat := by omega
    refine ⟨cnfs_from_hedgeN h m.toNat, ?_, ?_, ?_, ?_⟩
    · have := cnfs_from_hedge_pos h m.toNat hmn
      rwa [Int.toNat_of_nonneg (by omega)] at this
    · exact cnfs_from_hedgeN_length h m.toNat
    · intro hbig
      refine cnfs_from_hedgeN_eq_nil ?_
      have h2 : ((2 : ℤ) ^ h.card).toNat < m.toNat :=
        (Int.toNat_lt_toNat (by omega)).mpr hbig
      have h3 : ((2 : ℤ) ^ h.card).toNat = 2 ^ h.card := by
        rw [← Nat.cast_ofNat (n := 2), ← Nat.cast_pow, Int.toNat_natCast]
      omega
    · intro x hx
      exact cnfs_from_hedgeN_card hpos hx
  · intro hm
    rcases lt_or_eq_of_le (by omega : m ≤ 0) with hlt | heq
    · exact ⟨"r must be non-negative", by simp [cnfs_from_hedge, hlt]⟩
    · refine ⟨"Encountered empty input", ?_⟩
      subst heq
      simp [cnfs_from_hedge]

/-- Witness for C8 at the edge `{1, 2}` with `m = 2` and `m = -1`. -/
theorem claim_C8_witness :
    ((1 : ℤ) ≤ 2 → ∃ L, cnfs_from_hedge ({1, 2} : HEdge) 2 = Except.ok L ∧
        L.length = Nat.choose (2 ^ ({1, 2} : HEdge).card) (2 : ℤ).toNat ∧
        ((2 : ℤ) ^ ({1, 2} : HEdge).card < 2 → L = []) ∧
        ∀ x ∈ L, x.card = (2 : ℤ).toNat ∧
          ∀ cl ∈ x, cl ∈ clauses_from_hedge ({1, 2} : HEdge)) ∧
    ((-1 : ℤ) < 1 → ∃ msg,
        cnfs_from_hedge ({1, 2} : HEdge) (-1) = Except.error msg) :=
  ⟨(claim_C8_cnfs_from_hedge ({1, 2} : HEdge) 2 (by decide)).1,
   (claim_C8_cnfs_from_hedge ({1, 2} : HEdge) (-1) (by decide)).2⟩

/-- A sublist of a list without duplicates is the filter of the list to
its members. -/
lemma sublist_eq_filter_mem {α : Type} [DecidableEq α] :
    ∀ {l pool : List α}, List.Sublist l pool → pool.Nodup →
      pool.filter (fun a => a ∈ l) = l := by
  intro l pool hs
  induction hs with
  | slnil => intro _; rfl
  | cons a hs ih =>
      intro hn
      rename_i l1 l2
      have ha : a ∉ l1 := fun hmem =>
        (List.nodup_cons.mp hn).1 (hs.subset hmem)
      rw [List.filter_cons_of_neg (by simpa using ha)]
      exact ih (List.nodup_cons.mp hn).2
  | cons₂ a hs ih =>
      intro hn
      rename_i l1 l2
      have ha : a ∉ l2 := (List.nodup_cons.mp hn).1
      have hstep : l2.filter (fun x => decide (x ∈ a :: l1)) =
          l2.filter (fun x => decide (x ∈ l1)) := by
        apply List.filter_congr
        intro x hx
        have hxa : x ≠ a := fun hxa => ha (hxa ▸ hx)
        simp [hxa]
      rw [List.filter_cons_of_pos (by simp), hstep,
        ih (List.nodup_cons.mp hn).2]

/-- Two sublists of a duplicate-free list with the same element set are
equal. -/
lemma sublist_toFinset_inj {α : Type} [DecidableEq α] {l1 l2 pool : List α}
    (h1 : List.Sublist l1 pool) (h2 : List.Sublist l2 pool) (hn : pool.Nodup)
    (heq : l1.toFinset = l2.toFinset) : l1 = l2 := by
  have e1 := sublist_eq_filter_mem h1 hn
  have e2 := sublist_eq_filter_mem h2 hn
  rw [← e1, ← e2]
  apply List.filter_congr
  intro x _
  have : x ∈ l1 ↔ x ∈ l2 := by
    constructor <;> intro hx
    · exact List.mem_toFinset.mp (heq ▸ List.mem_toFinset.mpr hx)
    · exact List.mem_toFinset.mp (heq.symm ▸ List.mem_toFinset.mpr hx)
  simp [this]

lemma cnfs_from_hedgeN_nodup {h : HEdge} (hpos : ∀ v ∈ h, 0 < v)
    (m : ℕ) : (cnfs_from_hedgeN h m).Nodup := by
  refine List.Nodup.map_on ?_
    (List.nodup_sublistsLen m (clauses_from_hedge_nodup hpos))
  intro l1 hl1 l2 hl2 heq
  exact sublist_toFinset_inj (List.mem_sublistsLen.mp hl1).1
    (List.mem_sublistsLen.mp hl2).1 (clauses_from_hedge_nodup hpos) heq

/-- Invariant on an item list: distinct keys, positive vertices. -/
def GoodItems (l : List (HEdge × ℕ)) : Prop :=
  (l.map Prod.fst).Nodup ∧ ∀ p ∈ l, ∀ v ∈ p.1, 0 < v

lemma cnfsFromItems_vars {l : List (HEdge × ℕ)} :
    ∀ u ∈ cnfsFromItems l, ∀ cl ∈ u, ∃ p ∈ l, cl ∈ clauses_from_hedge p.1 := by
  induction l with
  | nil =>
      intro u hu cl hcl
      simp only [cnfsFromItems, List.mem_singleton] at hu
      subst hu
      exact absurd hcl (Finset.not_mem_empty cl)
  | cons p rest ih =>
      intro u hu cl hcl
      obtain ⟨h, m⟩ := p
      simp only [cnfsFromItems, List.mem_flatMap, List.mem_map] at hu
      obtain ⟨x, hx, y, hy, rfl⟩ := hu
      rcases Finset.mem_union.mp hcl with hclx | hcly
      · refine ⟨(h, m), List.mem_cons_self _ _, ?_⟩
        obtain ⟨lx, hlx, rfl⟩ := mem_cnfs_from_hedgeN hx
        exact (List.mem_sublistsLen.mp hlx).1.subset (List.mem_toFinset.mp hclx)
      · obtain ⟨q, hq, hclq⟩ := ih y hy cl hcly
        exact ⟨q, List.mem_cons_of_mem _ hq, hclq⟩

/-- The union pairing of the product enumeration is injective: the
per-hyperedge component is recovered by filtering on variable sets. -/
lemma cnfsFromItems_union_inj {h : HEdge} {m : ℕ} {rest : List (HEdge × ℕ)}
    (hgood : GoodItems ((h, m) :: rest))
    {x x' : Cnf} (hx : x ∈ cnfs_from_hedgeN h m) (hx' : x' ∈ cnfs_from_hedgeN h m)
    {y y' : Cnf} (hy : y ∈ cnfsFromItems rest) (hy' : y' ∈ cnfsFromItems rest)
    (heq : x ∪ y = x' ∪ y') : x = x' ∧ y = y' := by
  have hpos : ∀ v ∈ h, 0 < v := hgood.2 (h, m) (List.mem_cons_self _ _)
  have hxvars : ∀ cl ∈ x, varsOfClause cl = h := fun cl hcl =>
    varsOfClause_of_mem hpos ((cnfs_from_hedgeN_card hpos hx).2 cl hcl)
  have hxvars' : ∀ cl ∈ x', varsOfClause cl = h := fun cl hcl =>
    varsOfClause_of_mem hpos ((cnfs_from_hedgeN_card hpos hx').2 cl hcl)
  have hyvars : ∀ cl ∈ y, varsOfClause cl ≠ h := by
    intro cl hcl hvar
    obtain ⟨q, hq, hclq⟩ := cnfsFromItems_vars y hy cl hcl
    have hqpos : ∀ v ∈ q.1, 0 < v := hgood.2 q (List.mem_cons_of_mem _ hq)
    have : varsOfClause cl = q.1 := varsOfClause_of_mem hqpos hclq
    have hq1 : q.1 = h := by rw [← this, hvar]
    have : h ∈ rest.map Prod.fst := hq1 ▸ List.mem_map_of_mem Prod.fst hq
    exact (List.nodup_cons.mp hgood.1).1 (by simpa using this)
  have hyvars' : ∀ cl ∈ y', varsOfClause cl ≠ h := by
    intro cl hcl hvar
    obtain ⟨q, hq, hclq⟩ := cnfsFromItems_vars y' hy' cl hcl
    have hqpos : ∀ v ∈ q.1, 0 < v := hgood.2 q (List.mem_cons_of_mem _ hq)
    have : varsOfClause cl = q.1 := varsOfClause_of_mem hqpos hclq
    have hq1 : q.1 = h := by rw [← this, hvar]
    have : h ∈ rest.map Prod.fst := hq1 ▸ List.mem_map_of_mem Prod.fst hq
    exact (List.nodup_cons.mp hgood.1).1 (by simpa using this)
  have split : ∀ (a : Cnf) (b : Cnf), (∀ cl ∈ a, varsOfClause cl = h) →
      (∀ cl ∈ b, varsOfClause cl ≠ h) →
      (a ∪ b).filter (fun cl => varsOfClause cl = h) = a ∧
      (a ∪ b).filter (fun cl => varsOfClause cl ≠ h) = b := by
    intro a b ha hb
    constructor
    · ext cl
      simp only [Finset.mem_filter, Finset.mem_union]
      constructor
      · rintro ⟨hcl | hcl, hv⟩
        · exact hcl
        · exact absurd hv (hb cl hcl)
      · intro hcl
        exact ⟨Or.inl hcl, ha cl hcl⟩
    · ext cl
      simp only [Finset.mem_filter, Finset.mem_union]
      constructor
      · rintro ⟨hcl | hcl, hv⟩
        · exact absurd (ha cl hcl) hv
        · exact hcl
      · intro hcl
        exact ⟨Or.inr hcl, hb cl hcl⟩
  obtain ⟨s1, s2⟩ := split x y hxvars hyvars
  obtain ⟨s1', s2'⟩ := split x' y' hxvars' hyvars'
  rw [heq] at s1 s2
  exact ⟨s1.symm.trans s1', s2.symm.trans s2'⟩

lemma cnfsFromItems_nodup {l : List (HEdge × ℕ)} (hgood : GoodItems l) :
    (cnfsFromItems l).Nodup := by
  induction l with
  | nil => simp [cnfsFromItems]
  | cons p rest ih =>
      obtain ⟨h, m⟩ := p
      have hpos : ∀ v ∈ h, 0 < v := hgood.2 (h, m) (List.mem_cons_self _ _)
      have hgoodrest : GoodItems rest :=
        ⟨(List.nodup_cons.mp hgood.1).2,
         fun q hq => hgood.2 q (List.mem_cons_of_mem _ hq)⟩
      show ((cnfs_from_hedgeN h m).flatMap
        (fun x => (cnfsFromItems rest).map (fun y => x ∪ y))).Nodup
      rw [List.nodup_flatMap]
      refine ⟨?_, ?_⟩
      · intro x hx
        refine List.Nodup.map_on ?_ (ih hgoodrest)
        intro y hy y' hy' heq
        exact (cnfsFromItems_union_inj hgood hx hx hy hy' heq).2
      · have hnd := cnfs_from_hedgeN_nodup hpos m
        refine List.Pairwise.imp_of_mem ?_ hnd
        intro x x' hx hx' hne
        intro u hu hu'
        rcases List.mem_map.mp hu with ⟨y, hy, rfl⟩
        rcases List.mem_map.mp hu' with ⟨y', hy', heq⟩
        exact hne (cnfsFromItems_union_inj hgood hx hx' hy hy' heq.symm).1

lemma cnfsFromItems_length (l : List (HEdge × ℕ)) :
    (cnfsFromItems l).length =
      (l.map (fun p => Nat.choose (2 ^ p.1.card) p.2)).prod := by
  induction l with
  | nil => simp [cnfsFromItems]
  | cons p rest ih =>
      obtain ⟨h, m⟩ := p
      show ((cnfs_from_hedgeN h m).flatMap
        (fun x => (cnfsFromItems rest).map (fun y => x ∪ y))).length = _
      rw [List.length_flatMap]
      simp only [Function.comp_def]
      have hconst : ((cnfs_from_hedgeN h m).map
          (fun x => ((cnfsFromItems rest).map (fun y => x ∪ y)).length)) =
          (cnfs_from_hedgeN h m).map
            (fun _ => (cnfsFromItems rest).length) := by
        apply List.map_congr_left
        intro x _
        exact List.length_map _ _
      rw [hconst, List.map_const', List.sum_replicate, smul_eq_mul, ih,
        cnfs_from_hedgeN_length]
      simp [Nat.mul_comm]

lemma goodItems_of_wf {G : MHGraph} (hwf : WfGraph G) : GoodItems (items G) := by
  constructor
  · have : (items G).map Prod.fst = msort hedgeR G.toFinset.val := by
      rw [items, List.map_map]
      exact List.map_id _
    rw [this]
    exact msort_nodup G.toFinset.nodup
  · intro p hp v hv
    rcases List.mem_map.mp hp with ⟨h, hh, rfl⟩
    have : h ∈ G.toFinset.val := mem_msort.mp hh
    exact (hwf.2 h (Multiset.mem_toFinset.mp this)).2 v hv

/-- Claim C5: `number_of_cnfs` is the product over the distinct
hyperedges of `C(2^|h|, m)`, and the set of distinct Cnfs yielded by
`cnfs_from_mhgraph` has exactly `number_of_cnfs(G)` elements. -/
theorem claim_C5_number_of_cnfs (G : MHGraph) (hwf : WfGraph G) :
    number_of_cnfs G =
      ∏ h ∈ G.toFinset, Nat.choose (2 ^ h.card) (G.count h) ∧
    (cnfs_from_mhgraph G).toFinset.card = number_of_cnfs G := by
  constructor
  · rw [number_of_cnfs, Finset.prod]
    rw [items, List.map_map]
    have heq : (msort hedgeR G.toFinset.val).map
        ((fun p : HEdge × ℕ => Nat.choose (2 ^ p.1.card) p.2) ∘
          (fun h => (h, G.count h))) =
        (msort hedgeR G.toFinset.val).map
          (fun h => Nat.choose (2 ^ h.card) (G.count h)) := rfl
    rw [heq]
    have hperm : ((msort hedgeR G.toFinset.val) : Multiset HEdge) =
        G.toFinset.val := msort_perm _ _
    calc ((msort hedgeR G.toFinset.val).map
          (fun h => Nat.choose (2 ^ h.card) (G.count h))).prod
        = (((msort hedgeR G.toFinset.val) : Multiset HEdge).map
            (fun h => Nat.choose (2 ^ h.card) (G.count h))).prod := by
          rw [Multiset.map_coe, Multiset.prod_coe]
      _ = (G.toFinset.val.map
            (fun h => Nat.choose (2 ^ h.card) (G.count h))).prod := by
          rw [hperm]
  · rw [cnfs_from_mhgraph,
      List.toFinset_card_of_nodup (cnfsFromItems_nodup (goodItems_of_wf hwf)),
      cnfsFromItems_length, number_of_cnfs]

/-- Witness for C5 at the single edge `{1, 2}`. -/
theorem claim_C5_witness :
    number_of_cnfs {({1, 2} : Finset ℕ)} =
      ∏ h ∈ ({({1, 2} : Finset ℕ)} : MHGraph).toFinset,
        Nat.choose (2 ^ h.card) (Multiset.count h {({1, 2} : Finset ℕ)}) ∧
    (cnfs_from_mhgraph {({1, 2} : Finset ℕ)}).toFinset.card =
      number_of_cnfs {({1, 2} : Finset ℕ)} :=
  claim_C5_number_of_cnfs {({1, 2} : Finset ℕ)} ⟨by decide, by decide⟩

/-- A clause in reduced normal position: no Bool constants and no
complementary pair. -/
def ClauseGood (cl : Clause) : Prop :=
  (∀ b, Lit.bool b ∉ cl) ∧ Disjoint (cl.image neg) cl

lemma reduce_clause_shape (cl : Clause) :
    tautologically_reduce_clause cl = TRUE_CLAUSE ∨
    tautologically_reduce_clause cl = FALSE_CLAUSE ∨
    ClauseGood (tautologically_reduce_clause cl) := by
  by_cases h1 : Lit.bool true ∈ cl
  · left; rw [tautologically_reduce_clause, if_pos h1]
  by_cases h2 : cl = FALSE_CLAUSE
  · right; left; rw [tautologically_reduce_clause, if_neg h1, if_pos h2]
  by_cases h3 : ¬ Disjoint ((cl.erase (Lit.bool false)).image neg)
      (cl.erase (Lit.bool false))
  · left
    rw [tautologically_reduce_clause, if_neg h1, if_neg h2, if_pos h3]
  · right; right
    rw [tautologically_reduce_clause, if_neg h1, if_neg h2, if_neg h3]
    constructor
    · intro b hb
      cases b
      · exact absurd rfl (Finset.ne_of_mem_erase hb)
      · exact h1 (Finset.mem_of_mem_erase hb)
    · exact not_not.mp h3

lemma reduce_clause_true :
    tautologically_reduce_clause TRUE_CLAUSE = TRUE_CLAUSE := by
  decide

lemma reduce_clause_false :
    tautologically_reduce_clause FALSE_CLAUSE = FALSE_CLAUSE := by
  decide

lemma reduce_clause_good {cl : Clause} (hg : ClauseGood cl) :
    tautologically_reduce_clause cl = cl := by
  have h1 : Lit.bool true ∉ cl := hg.1 true
  have h2 : cl ≠ FALSE_CLAUSE := by
    intro hbad
    exact hg.1 false (hbad ▸ Finset.mem_singleton_self _)
  have h3 : cl.erase (Lit.bool false) = cl :=
    Finset.erase_eq_of_not_mem (hg.1 false)
  have h4 : ¬¬ Disjoint ((cl.erase (Lit.bool false)).image neg)
      (cl.erase (Lit.bool false)) := by
    rw [h3]
    exact not_not.mpr hg.2
  rw [tautologically_reduce_clause, if_neg h1, if_neg h2, if_neg h4, h3]

lemma reduce_clause_idem (cl : Clause) :
    tautologically_reduce_clause (tautologically_reduce_clause cl) =
      tautologically_reduce_clause cl := by
  rcases reduce_clause_shape cl with h | h | h
  · rw [h, reduce_clause_true]
  · rw [h, reduce_clause_false]
  · exact reduce_clause_good h

lemma image_reduce_of_reduced {s : Cnf}
    (hs : ∀ cl ∈ s, tautologically_reduce_clause cl = cl) :
    s.image tautologically_reduce_clause = s := by
  ext cl
  simp only [Finset.mem_image]
  constructor
  · rintro ⟨cl0, hcl0, rfl⟩
    rw [hs cl0 hcl0]
    exact hcl0
  · intro hcl
    exact ⟨cl, hcl, hs cl hcl⟩

/-- Closed form of the Cnf reduction: the recursion fires at most once
because clause reduction is idempotent. -/
lemma reduce_cnf_eq (c : Cnf) :
    tautologically_reduce_cnf c =
      (if FALSE_CLAUSE ∈ c.image tautologically_reduce_clause then FALSE_CNF
       else if c.image tautologically_reduce_clause = TRUE_CNF then TRUE_CNF
       else if TRUE_CLAUSE ∈ c.image tautologically_reduce_clause then
         (c.image tautologically_reduce_clause).erase TRUE_CLAUSE
       else c.image tautologically_reduce_clause) := by
  rw [tautologically_reduce_cnf]
  by_cases h1 : FALSE_CLAUSE ∈ c.image tautologically_reduce_clause
  · rw [if_pos h1, if_pos h1]
  rw [if_neg h1, if_neg h1]
  by_cases h2 : c.image tautologically_reduce_clause = TRUE_CNF
  · rw [if_pos h2, if_pos h2]
  rw [if_neg h2, if_neg h2]
  by_cases h3 : TRUE_CLAUSE ∈ c.image tautologically_reduce_clause
  · rw [dif_pos h3, if_pos h3]
    have himg : ((c.image tautologically_reduce_clause).erase
        TRUE_CLAUSE).image tautologically_reduce_clause =
        (c.image tautologically_reduce_clause).erase TRUE_CLAUSE := by
      apply image_reduce_of_reduced
      intro cl hcl
      obtain ⟨cl0, _, hcl0⟩ :=
        Finset.mem_image.mp (Finset.mem_of_mem_erase hcl)
      rw [← hcl0, reduce_clause_idem]
    rw [tautologically_reduce_cnf]
    have hF : FALSE_CLAUSE ∉ ((c.image tautologically_reduce_clause).erase
        TRUE_CLAUSE).image tautologically_reduce_clause := by
      rw [himg]
      intro hbad
      exact h1 (Finset.mem_of_mem_erase hbad)
    have hTC : ((c.image tautologically_reduce_clause).erase
        TRUE_CLAUSE).image tautologically_reduce_clause ≠ TRUE_CNF := by
      rw [himg]
      intro hbad
      have : TRUE_CLAUSE ∈
          (c.image tautologically_reduce_clause).erase TRUE_CLAUSE :=
        hbad ▸ Finset.mem_singleton_self _
      exact Finset.not_mem_erase _ _ this
    have hT : TRUE_CLAUSE ∉ ((c.image tautologically_reduce_clause).erase
        TRUE_CLAUSE).image tautologically_reduce_clause := by
      rw [himg]
      exact Finset.not_mem_erase _ _
    rw [if_neg hF, if_neg hTC, dif_neg hT, himg]
  · rw [dif_neg h3, if_neg h3]

/-- Every result of the Cnf reduction is trivial or made of good
clauses. -/
lemma reduce_cnf_shape (c : Cnf) :
    tautologically_reduce_cnf c = TRUE_CNF ∨
    tautologically_reduce_cnf c = FALSE_CNF ∨
    ∀ cl ∈ tautologically_reduce_cnf c, ClauseGood cl := by
  rw [reduce_cnf_eq]
  by_cases h1 : FALSE_CLAUSE ∈ c.image tautologically_reduce_clause
  · rw [if_pos h1]
    right; left; rfl
  rw [if_neg h1]
  by_cases h2 : c.image tautologically_reduce_clause = TRUE_CNF
  · rw [if_pos h2]
    left; rfl
  rw [if_neg h2]
  have hgood : ∀ cl ∈ c.image tautologically_reduce_clause,
      cl ≠ TRUE_CLAUSE → ClauseGood cl := by
    intro cl hcl hne
    obtain ⟨cl0, _, hcl0⟩ := Finset.mem_image.mp hcl
    rcases reduce_clause_shape cl0 with h | h | h
    · exact absurd (hcl0.symm.trans h) hne
    · have hclF : cl = FALSE_CLAUSE := hcl0.symm.trans h
      exact absurd (hclF ▸ hcl) h1
    · exact hcl0 ▸ h
  by_cases h3 : TRUE_CLAUSE ∈ c.image tautologically_reduce_clause
  · rw [if_pos h3]
    right; right
    intro cl hcl
    exact hgood cl (Finset.mem_of_mem_erase hcl) (Finset.ne_of_mem_erase hcl)
  · rw [if_neg h3]
    right; right
    intro cl hcl
    exact hgood cl hcl (fun hbad => h3 (hbad ▸ hcl))

/-- `mhgraph_from_cnf` from `translation.py`: reduce, fail on trivial
True/False, otherwise the multiset of per-clause variable sets
(multiplicities from repeated variable sets). -/
def mhgraph_from_cnf (c : Cnf) : Except String MHGraph :=
  if tautologically_reduce_cnf c = TRUE_CNF ∨
      tautologically_reduce_cnf c = FALSE_CNF then
    .error "Cnf reduced to trivial True or False"
  else .ok ((tautologically_reduce_cnf c).val.map varsOfClause)

/-- The constructor invariant of `cnf.py`: literal ints are nonzero. -/
def WfCnf (c : Cnf) : Prop :=
  ∀ cl ∈ c, ∀ l ∈ cl, l ≠ Lit.int 0

lemma wfCnf_int {c : Cnf} (hwf : WfCnf c) {cl : Clause} (hcl : cl ∈ c)
    {l : Lit} (hl : l ∈ cl) {n : ℤ} (hln : l = Lit.int n) : n ≠ 0 := by
  intro h0
  exact hwf cl hcl l hl (by rw [hln, h0])

lemma mem_hkey {h : HEdge} {v : ℕ} : v ∈ hkey h ↔ v ∈ h := by
  rw [hkey, mem_msort]
  exact Iff.rfl

/-- A good, well-formed clause is one of the clauses supported on its own
variable set. -/
lemma good_clause_mem {cl : Clause} (hg : ClauseGood cl)
    (hwf : ∀ l ∈ cl, ∀ n : ℤ, l = Lit.int n → n ≠ 0) :
    cl ∈ clauses_from_hedge (varsOfClause cl) := by
  have hint : ∀ l ∈ cl, ∃ n : ℤ, l = Lit.int n ∧ n ≠ 0 := by
    intro l hl
    cases l with
    | int n => exact ⟨n, rfl, hwf _ hl n rfl⟩
    | bool b => exact absurd hl (hg.1 b)
  have hpos : ∀ v ∈ varsOfClause cl, 0 < v := by
    intro v hv
    obtain ⟨l, hl, hlv⟩ := Finset.mem_image.mp hv
    obtain ⟨n, rfl, hn⟩ := hint l hl
    have : litVar (Lit.int n) = n.natAbs := rfl
    omega
  have hposk : ∀ v ∈ hkey (varsOfClause cl), 0 < v := by
    intro v hv
    exact hpos v (mem_hkey.mp hv)
  rw [mem_clauses_from_hedge]
  apply signCombos_of_props (msort_nodup (varsOfClause cl).nodup) hposk
  · intro x hx
    obtain ⟨n, rfl, hn⟩ := hint x hx
    refine ⟨n.natAbs, mem_hkey.mpr (Finset.mem_image.mpr ⟨_, hx, rfl⟩), ?_⟩
    rcases Int.natAbs_eq n with h | h
    · left; rw [← h]
    · right; rw [← h]
  · intro v hv ⟨hvp, hvn⟩
    have : Lit.int (-(v : ℤ)) ∈ cl.image neg :=
      Finset.mem_image.mpr ⟨Lit.int (v : ℤ), hvp, rfl⟩
    exact Finset.disjoint_left.mp hg.2 this hvn
  · intro v hv
    have hvmem : v ∈ varsOfClause cl := mem_hkey.mp hv
    obtain ⟨l, hl, hlv⟩ := Finset.mem_image.mp hvmem
    obtain ⟨n, rfl, hn⟩ := hint l hl
    have hnat : n.natAbs = v := hlv
    rcases Int.natAbs_eq n with h | h
    · left
      rw [show ((v : ℤ)) = n by omega]
      exact hl
    · right
      rw [show (-(v : ℤ)) = n by omega]
      exact hl

/-- A Cnf whose clause census matches an item list is enumerated by the
product construction. -/
lemma mem_cnfsFromItems (l : List (HEdge × ℕ)) (u : Cnf)
    (hkeys : (l.map Prod.fst).Nodup)
    (hposall : ∀ p ∈ l, ∀ v ∈ p.1, 0 < v)
    (hcount : ∀ p ∈ l,
      (u.filter (fun cl => varsOfClause cl = p.1)).card = p.2)
    (hmem : ∀ cl ∈ u, cl ∈ clauses_from_hedge (varsOfClause cl))
    (hcover : ∀ cl ∈ u, ∃ p ∈ l, varsOfClause cl = p.1) :
    u ∈ cnfsFromItems l := by
  induction l generalizing u with
  | nil =>
      have : u = ∅ := by
        by_contra hne
        obtain ⟨cl, hcl⟩ := Finset.nonempty_of_ne_empty hne
        obtain ⟨p, hp, _⟩ := hcover cl hcl
        exact absurd hp (List.not_mem_nil p)
      rw [this]
      exact List.mem_singleton_self _
  | cons p rest ih =>
      obtain ⟨h, m⟩ := p
      set x := u.filter (fun cl => varsOfClause cl = h) with hx
      set y := u.filter (fun cl => ¬(varsOfClause cl = h)) with hy
      have hpos : ∀ v ∈ h, 0 < v := hposall (h, m) (List.mem_cons_self _ _)
      have hxy : x ∪ y = u := Finset.filter_union_filter_neg_eq _ u
      have hxmem : x ∈ cnfs_from_hedgeN h m := by
        have hxsub : ∀ cl ∈ x, cl ∈ clauses_from_hedge h := by
          intro cl hcl
          obtain ⟨hclu, hclh⟩ := Finset.mem_filter.mp hcl
          have := hmem cl hclu
          rwa [hclh] at this
        set l' := (clauses_from_hedge h).filter (fun cl => cl ∈ x) with hl'
        have hsubl : List.Sublist l' (clauses_from_hedge h) :=
          List.filter_sublist _
        have hnodup : l'.Nodup := hsubl.nodup (clauses_from_hedge_nodup hpos)
        have htf : l'.toFinset = x := by
          ext cl
          simp only [hl', List.mem_toFinset, List.mem_filter, decide_eq_true_eq]
          constructor
          · rintro ⟨_, hclx⟩
            exact hclx
          · intro hclx
            exact ⟨hxsub cl hclx, hclx⟩
        have hlen : l'.length = m := by
          rw [← List.toFinset_card_of_nodup hnodup, htf]
          exact hcount (h, m) (List.mem_cons_self _ _)
        rw [cnfs_from_hedgeN]
        refine List.mem_map.mpr ⟨l', ?_, htf⟩
        exact List.mem_sublistsLen.mpr ⟨hsubl, hlen⟩
      have hymem : y ∈ cnfsFromItems rest := by
        refine ih y (List.nodup_cons.mp hkeys).2
          (fun q hq => hposall q (List.mem_cons_of_mem _ hq)) ?_ ?_ ?_
        · intro q hq
          have hqh : q.1 ≠ h := by
            intro hbad
            have : h ∈ rest.map Prod.fst :=
              hbad ▸ List.mem_map_of_mem Prod.fst hq
            exact (List.nodup_cons.mp hkeys).1 (by simpa using this)
          have : y.filter (fun cl => varsOfClause cl = q.1) =
              u.filter (fun cl => varsOfClause cl = q.1) := by
            ext cl
            simp only [hy, Finset.mem_filter]
            constructor
            · rintro ⟨⟨hclu, _⟩, hcl2⟩
              exact ⟨hclu, hcl2⟩
            · rintro ⟨hclu, hcl2⟩
              exact ⟨⟨hclu, by rw [hcl2]; exact hqh⟩, hcl2⟩
          rw [this]
          exact hcount q (List.mem_cons_of_mem _ hq)
        · intro cl hcl
          exact hmem cl (Finset.mem_of_mem_filter cl hcl)
        · intro cl hcl
          obtain ⟨hclu, hclh⟩ := Finset.mem_filter.mp hcl
          obtain ⟨q, hq, hqcl⟩ := hcover cl hclu
          rcases List.mem_cons.mp hq with rfl | hq'
          · exact absurd hqcl hclh
          · exact ⟨q, hq', hqcl⟩
      show u ∈ (cnfs_from_hedgeN h m).flatMap
        (fun x0 => (cnfsFromItems rest).map (fun y0 => x0 ∪ y0))
      refine List.mem_flatMap.mpr ⟨x, hxmem, ?_⟩
      exact List.mem_map.mpr ⟨y, hymem, hxy⟩

lemma mem_items {G : MHGraph} {h : HEdge} (hh : h ∈ G.toFinset) :
    (h, G.count h) ∈ items G := by
  rw [items]
  exact List.mem_map_of_mem _ (mem_msort.mpr hh)

/-- Claim C4, amended: a tautologically reduced non-trivial well-formed
Cnf is among the Cnfs supported on its own MHGraph.  (As stated over all
non-trivial Cnfs the claim fails; see the counterexample.) -/
theorem claim_C4_roundtrip (C : Cnf)
    (hred : tautologically_reduce_cnf C = C)
    (hT : C ≠ TRUE_CNF) (hF : C ≠ FALSE_CNF) (hwf : WfCnf C) :
    ∃ G, mhgraph_from_cnf C = Except.ok G ∧ C ∈ cnfs_from_mhgraph G := by
  have hgood : ∀ cl ∈ C, ClauseGood cl := by
    rcases reduce_cnf_shape C with h | h | h
    · exact absurd (hred.symm.trans h) hT
    · exact absurd (hred.symm.trans h) hF
    · rw [hred] at h
      exact h
  set G : MHGraph := C.val.map varsOfClause with hG
  refine ⟨G, ?_, ?_⟩
  · rw [mhgraph_from_cnf, if_neg, hred]
    rw [hred]
    rintro (h | h)
    · exact hT h
    · exact hF h
  · rw [cnfs_from_mhgraph]
    apply mem_cnfsFromItems
    · have : (items G).map Prod.fst = msort hedgeR G.toFinset.val := by
        rw [items, List.map_map]
        exact List.map_id _
      rw [this]
      exact msort_nodup G.toFinset.nodup
    · intro p hp v hv
      rcases List.mem_map.mp hp with ⟨h, hh, rfl⟩
      have hhG : h ∈ G.toFinset := Finset.mem_def.mpr (mem_msort.mp hh)
      obtain ⟨cl, hcl, hclh⟩ :=
        Multiset.mem_map.mp (Multiset.mem_toFinset.mp hhG)
      have hclC : cl ∈ C := hcl
      have hint : ∀ l ∈ cl, ∃ n : ℤ, l = Lit.int n ∧ n ≠ 0 := by
        intro l hl
        cases l with
        | int n => exact ⟨n, rfl, wfCnf_int hwf hclC hl rfl⟩
        | bool b => exact absurd hl ((hgood cl hclC).1 b)
      rw [← hclh] at hv
      obtain ⟨l, hl, hlv⟩ := Finset.mem_image.mp hv
      obtain ⟨n, rfl, hn⟩ := hint l hl
      have : litVar (Lit.int n) = n.natAbs := rfl
      omega
    · intro p hp
      rcases List.mem_map.mp hp with ⟨h, hh, rfl⟩
      show (C.filter (fun cl => varsOfClause cl = h)).card = G.count h
      rw [hG, Multiset.count_map]
      have hflip : Multiset.filter (fun a => h = varsOfClause a) C.val =
          Multiset.filter (fun cl => varsOfClause cl = h) C.val := by
        apply Multiset.filter_congr
        intro x _
        exact ⟨fun hx => hx.symm, fun hx => hx.symm⟩
      rw [hflip]
      rfl
    · intro cl hcl
      exact good_clause_mem (hgood cl hcl)
        (fun l hl n hln => wfCnf_int hwf hcl hl hln)
    · intro cl hcl
      refine ⟨(varsOfClause cl, G.count (varsOfClause cl)), ?_, rfl⟩
      apply mem_items
      rw [hG]
      exact Multiset.mem_toFinset.mpr
        (Multiset.mem_map.mpr ⟨cl, hcl, rfl⟩)

/-- Witness for the amended C4 at the reduced Cnf `{{1, 2}, {-1}}`. -/
theorem claim_C4_witness :
    ∃ G, mhgraph_from_cnf
        {({Lit.int 1, Lit.int 2} : Finset Lit), {Lit.int (-1)}} =
        Except.ok G ∧
      ({({Lit.int 1, Lit.int 2} : Finset Lit), {Lit.int (-1)}} : Cnf) ∈
        cnfs_from_mhgraph G :=
  claim_C4_roundtrip _
    (by rw [reduce_cnf_eq]; decide) (by decide) (by decide)
    (by unfold WfCnf; decide)

/-- Counterexample to C4 as stated: `{{1}, {1, -1}}` is non-trivial (its
reduction is `{{1}}`, so `mhgraph_from_cnf` succeeds), but it is not
among the Cnfs supported on its MHGraph `{(1)}` — the reduction dropped
its tautological clause first. -/
theorem claim_C4_counterexample :
    mhgraph_from_cnf
        {({Lit.int 1} : Finset Lit), {Lit.int 1, Lit.int (-1)}} =
      Except.ok {({1} : Finset ℕ)} ∧
    ({({Lit.int 1} : Finset Lit), {Lit.int 1, Lit.int (-1)}} : Cnf) ∉
      cnfs_from_mhgraph {({1} : Finset ℕ)} := by
  constructor
  · have h0 : tautologically_reduce_cnf
        {({Lit.int 1} : Finset Lit), {Lit.int 1, Lit.int (-1)}} =
        {({Lit.int 1} : Finset Lit)} := by
      rw [reduce_cnf_eq]
      decide
    rw [mhgraph_from_cnf, h0, if_neg (by decide)]
    exact congrArg Except.ok (by decide)
  · decide

/-- `satcheck_entangled` from `graph_rewrite.py`: iterate over pairs
`(x_s, x_h1)`; when the conjunction is unsatisfiable scan `cnfs_hyp2` and
return `False` at the first `x_h2` with `x_s ∧ x_h2` unsatisfiable;
return `True` when the loops finish.  The early-`return` control flow is
the Boolean all/any structure below. -/
def satcheck_entangled (cnfs_sphr cnfs_hyp1 cnfs_hyp2 : List Cnf) : Bool :=
  cnfs_sphr.all (fun x_sph =>
    cnfs_hyp1.all (fun x_hyp1 =>
      cnf_sat (cnf_and_cnf x_sph x_hyp1) ||
        cnfs_hyp2.all (fun x_hyp2 =>
          cnf_sat (cnf_and_cnf x_sph x_hyp2))))

/-- Claim C3: `satcheck_entangled` returns true iff for every triple one
of the two conjunctions is satisfiable, and false exactly when some
triple has both conjunctions unsatisfiable. -/
theorem claim_C3_satcheck_entangled
    (cnfs_sphr cnfs_hyp1 cnfs_hyp2 : List Cnf) :
    (satcheck_entangled cnfs_sphr cnfs_hyp1 cnfs_hyp2 = true ↔
      ∀ x_sph ∈ cnfs_sphr, ∀ x_hyp1 ∈ cnfs_hyp1, ∀ x_hyp2 ∈ cnfs_hyp2,
        cnf_sat (cnf_and_cnf x_sph x_hyp1) = true ∨
        cnf_sat (cnf_and_cnf x_sph x_hyp2) = true) ∧
    (satcheck_entangled cnfs_sphr cnfs_hyp1 cnfs_hyp2 = false ↔
      ∃ x_sph ∈ cnfs_sphr, ∃ x_hyp1 ∈ cnfs_hyp1, ∃ x_hyp2 ∈ cnfs_hyp2,
        cnf_sat (cnf_and_cnf x_sph x_hyp1) = false ∧
        cnf_sat (cnf_and_cnf x_sph x_hyp2) = false) := by
  have hiff : satcheck_entangled cnfs_sphr cnfs_hyp1 cnfs_hyp2 = true ↔
      ∀ x_sph ∈ cnfs_sphr, ∀ x_hyp1 ∈ cnfs_hyp1, ∀ x_hyp2 ∈ cnfs_hyp2,
        cnf_sat (cnf_and_cnf x_sph x_hyp1) = true ∨
        cnf_sat (cnf_and_cnf x_sph x_hyp2) = true := by
    rw [satcheck_entangled, List.all_eq_true]
    constructor
    · intro h x_sph hs x_hyp1 h1 x_hyp2 h2
      have := h x_sph hs
      rw [List.all_eq_true] at this
      have := this x_hyp1 h1
      rcases Bool.or_eq_true _ _ |>.mp this with hsat | hall
      · exact Or.inl hsat
      · rw [List.all_eq_true] at hall
        exact Or.inr (hall x_hyp2 h2)
    · intro h x_sph hs
      rw [List.all_eq_true]
      intro x_hyp1 h1
      by_cases hsat : cnf_sat (cnf_and_cnf x_sph x_hyp1) = true
      · rw [hsat]
        exact Bool.true_or _
      · have hall : ∀ x_hyp2 ∈ cnfs_hyp2,
            cnf_sat (cnf_and_cnf x_sph x_hyp2) = true := by
          intro x_hyp2 h2
          rcases h x_sph hs x_hyp1 h1 x_hyp2 h2 with hc | hc
          · exact absurd hc hsat
          · exact hc
        rw [Bool.or_eq_true, List.all_eq_true]
        exact Or.inr hall
  refine ⟨hiff, ?_⟩
  rw [← Bool.not_eq_true, hiff]
  push_neg
  constructor
  · rintro ⟨x_sph, hs, x_hyp1, h1, x_hyp2, h2, hc1, hc2⟩
    exact ⟨x_sph, hs, x_hyp1, h1, x_hyp2, h2,
      Bool.not_eq_true _ ▸ hc1, Bool.not_eq_true _ ▸ hc2⟩
  · rintro ⟨x_sph, hs, x_hyp1, h1, x_hyp2, h2, hc1, hc2⟩
    exact ⟨x_sph, hs, x_hyp1, h1, x_hyp2, h2,
      by rw [hc1]; exact Bool.false_ne_true,
      by rw [hc2]; exact Bool.false_ne_true⟩

/-- `MHGraph.__hash__` from `graphsat/mhgraph.py` / `mhgraph.py`:
`hash(frozenset(self))` — the Python frozenset hash (an opaque function
of the key set) applied to the Counter's keys, ignoring the counts. -/
def mhgraph_hash (hashF : Finset HEdge → ℤ) (G : MHGraph) : ℤ :=
  hashF G.toFinset

/-- Claim C9: the hash depends only on the set of distinct hyperedges
(so equal key sets hash alike whatever the multiplicities), it is
consistent with equality, and it is strictly coarser than equality,
which does compare multiplicities. -/
theorem claim_C9_hash :
    (∀ (hashF : Finset HEdge → ℤ) (G1 G2 : MHGraph),
      G1.toFinset = G2.toFinset →
        mhgraph_hash hashF G1 = mhgraph_hash hashF G2) ∧
    (∀ (hashF : Finset HEdge → ℤ) (G1 G2 : MHGraph),
      G1 = G2 → mhgraph_hash hashF G1 = mhgraph_hash hashF G2) ∧
    (∃ G1 G2 : MHGraph, G1.toFinset = G2.toFinset ∧ G1 ≠ G2) := by
  refine ⟨?_, ?_, ?_⟩
  · intro hashF G1 G2 hkeyseq
    rw [mhgraph_hash, mhgraph_hash, hkeyseq]
  · intro hashF G1 G2 heq
    rw [heq]
  · refine ⟨{({1} : Finset ℕ)}, {({1} : Finset ℕ), ({1} : Finset ℕ)}, ?_, ?_⟩
    · decide
    · decide

/-- A Python dict of vertices, with `dict.get`-style lookup. -/
abbrev Translation := List (ℕ × ℕ)

/-- `translation[v]`: first binding of `v`, `None` on a missing key
(a missing key raises `KeyError` in the source). -/
def tlookup (t : Translation) (v : ℕ) : Option ℕ :=
  (t.find? (fun p => p.1 = v)).map Prod.snd

/-- The total function behind a translation (defaults outside the keys;
never consulted there under the preconditions below). -/
def tfun (t : Translation) (v : ℕ) : ℕ := (tlookup t v).getD 0

/-- `graph_image(ivmap, mhg)` from `graphsat/morphism.py`: translate
every vertex of every hyperedge occurrence; an uncovered vertex is a
`KeyError`, modelled as `none`. -/
def graph_image (t : Translation) (G : MHGraph) : Option MHGraph :=
  if ∀ h ∈ G, ∀ v ∈ h, (tlookup t v).isSome then
    some (G.map (fun h => h.image (tfun t)))
  else none

lemma mem_vertices {G : MHGraph} {h : HEdge} {v : ℕ} (hh : h ∈ G)
    (hv : v ∈ h) : v ∈ vertices G := by
  rw [vertices]
  have hle : h ≤ G.toFinset.sup id :=
    Finset.le_sup (f := id) (Multiset.mem_toFinset.mpr hh)
  exact hle hv

/-- Claim C10: when every vertex of `G` is a key of an injective
translation, `graph_image` succeeds, the total hyperedge multiplicity is
preserved, and every image hyperedge has as many vertices as its
preimage (injectivity prevents collapse). -/
theorem claim_C10_graph_image (t : Translation) (G : MHGraph)
    (hkeys : ∀ v ∈ vertices G, (tlookup t v).isSome)
    (hinj : ∀ p1 ∈ t, ∀ p2 ∈ t,
      tlookup t p1.1 = tlookup t p2.1 → p1.1 = p2.1) :
    graph_image t G = some (G.map (fun h => h.image (tfun t))) ∧
    Multiset.card (G.map (fun h => h.image (tfun t))) = Multiset.card G ∧
    ∀ h ∈ G, (h.image (tfun t)).card = h.card := by
  refine ⟨?_, Multiset.card_map _ _, ?_⟩
  · rw [graph_image, if_pos]
    intro h hh v hv
    exact hkeys v (mem_vertices hh hv)
  · intro h hh
    apply Finset.card_image_of_injOn
    intro v1 hv1 v2 hv2 heq
    have hs1 : (tlookup t v1).isSome := hkeys v1 (mem_vertices hh hv1)
    have hs2 : (tlookup t v2).isSome := hkeys v2 (mem_vertices hh hv2)
    have hkey1 : ∃ p ∈ t, p.1 = v1 := by
      rw [tlookup, Option.isSome_map'] at hs1
      obtain ⟨p, hp⟩ := Option.isSome_iff_exists.mp hs1
      exact ⟨p, List.mem_of_find?_eq_some hp,
        by simpa using List.find?_some hp⟩
    have hkey2 : ∃ p ∈ t, p.1 = v2 := by
      rw [tlookup, Option.isSome_map'] at hs2
      obtain ⟨p, hp⟩ := Option.isSome_iff_exists.mp hs2
      exact ⟨p, List.mem_of_find?_eq_some hp,
        by simpa using List.find?_some hp⟩
    obtain ⟨p1, hp1, hp1v⟩ := hkey1
    obtain ⟨p2, hp2, hp2v⟩ := hkey2
    have hlook : tlookup t v1 = tlookup t v2 := by
      obtain ⟨w1, hw1⟩ := Option.isSome_iff_exists.mp hs1
      obtain ⟨w2, hw2⟩ := Option.isSome_iff_exists.mp hs2
      have e1 : tfun t v1 = w1 := by rw [tfun, hw1]; rfl
      have e2 : tfun t v2 = w2 := by rw [tfun, hw2]; rfl
      rw [hw1, hw2, ← e1, ← e2, heq]
    rw [← hp1v, ← hp2v]
    apply hinj p1 hp1 p2 hp2
    rw [hp1v, hp2v]
    exact hlook

/-- Witness for C10: relabel the edge `{1, 2}` through `1 ↦ 3, 2 ↦ 4`. -/
theorem claim_C10_witness :
    graph_image [(1, 3), (2, 4)] {({1, 2} : Finset ℕ)} =
      some (({({1, 2} : Finset ℕ)} : MHGraph).map
        (fun h => h.image (tfun [(1, 3), (2, 4)]))) ∧
    Multiset.card ((({({1, 2} : Finset ℕ)} : MHGraph)).map
      (fun h => h.image (tfun [(1, 3), (2, 4)]))) =
      Multiset.card ({({1, 2} : Finset ℕ)} : MHGraph) ∧
    ∀ h ∈ ({({1, 2} : Finset ℕ)} : MHGraph),
      (h.image (tfun [(1, 3), (2, 4)])).card = h.card :=
  claim_C10_graph_image [(1, 3), (2, 4)] {({1, 2} : Finset ℕ)}
    (by decide) (by decide)

/-- `pick_max_degree_vertex` from `graphsat/mhgraph.py`:
`max(degree_sequence, key=...)` over the dict built from `vertices(mhg)`.
Python `max` keeps the first maximiser in iteration order; the iteration
order of the vertex frozenset is implementation defined, so it is taken
as an explicit parameter. -/
def pick_max_degree_vertex (order : List ℕ) (G : MHGraph) : ℕ :=
  match order with
  | [] => 0
  | v :: vs =>
      vs.foldl (fun best u => if degree best G < degree u G then u else best) v

/-- Counterexample to C7 as stated: on the single edge `{1, 8)}` both
vertices have degree 1; CPython iterates `frozenset({1, 8})` as
`(8, 1)` (small ints hash to themselves and land in slots 0 and 1), and
`max` then returns `8`, not the smallest vertex id `1`. -/
theorem claim_C7_counterexample :
    ([8, 1] : List ℕ).Nodup ∧
    ([8, 1] : List ℕ).toFinset = vertices {({1, 8} : Finset ℕ)} ∧
    degree 1 {({1, 8} : Finset ℕ)} = degree 8 {({1, 8} : Finset ℕ)} ∧
    pick_max_degree_vertex [8, 1] {({1, 8} : Finset ℕ)} = 8 ∧
    (8 : ℕ) ≠ 1 := by
  refine ⟨by decide, ?_, by decide, by decide, by decide⟩
  rw [vertices]
  decide

lemma pick_max_fold {G : MHGraph} :
    ∀ (vs : List ℕ) (v : ℕ),
      (vs.foldl (fun best u =>
          if degree best G < degree u G then u else best) v) ∈ v :: vs ∧
      ∀ u ∈ v :: vs, degree u G ≤
        degree (vs.foldl (fun best u =>
          if degree best G < degree u G then u else best) v) G := by
  intro vs
  induction vs with
  | nil =>
      intro v
      refine ⟨List.mem_singleton_self _, ?_⟩
      intro u hu
      rw [List.mem_singleton.mp hu]
      exact le_refl _
  | cons w ws ih =>
      intro v
      by_cases hlt : degree v G < degree w G
      · have h1 := (ih w).1
        have h2 := (ih w).2
        constructor
        · rw [List.foldl_cons, if_pos hlt]
          exact List.mem_cons_of_mem _ h1
        · intro u hu
          rw [List.foldl_cons, if_pos hlt]
          rcases List.mem_cons.mp hu with rfl | hu'
          · exact le_of_lt (lt_of_lt_of_le hlt
              (h2 w (List.mem_cons_self _ _)))
          · exact h2 u hu'
      · have h1 := (ih v).1
        have h2 := (ih v).2
        constructor
        · rw [List.foldl_cons, if_neg hlt]
          rcases List.mem_cons.mp h1 with h | h
          · exact List.mem_cons.mpr (Or.inl h)
          · exact List.mem_cons_of_mem _ (List.mem_cons_of_mem _ h)
        · intro u hu
          rw [List.foldl_cons, if_neg hlt]
          rcases List.mem_cons.mp hu with rfl | hu'
          · exact h2 u (List.mem_cons_self _ _)
          · rcases List.mem_cons.mp hu' with rfl | hu''
            · exact le_trans (le_of_not_lt hlt)
                (h2 v (List.mem_cons_self _ _))
            · exact h2 u (List.mem_cons_of_mem _ hu'')

/-- Claim C7, amended: for any iteration order of the vertex set,
`pick_max_degree_vertex` returns a vertex of maximum degree (the first
maximiser in that order); the tie-break is the set iteration order, not
the smallest vertex id. -/
theorem claim_C7_amended (G : MHGraph) (order : List ℕ)
    (hne : order ≠ [])
    (horder : order.toFinset = vertices G) :
    pick_max_degree_vertex order G ∈ vertices G ∧
    ∀ v ∈ vertices G, degree v G ≤ degree (pick_max_degree_vertex order G) G := by
  match order, hne with
  | v :: vs, _ =>
      obtain ⟨hmem, hmax⟩ := pick_max_fold vs v
      constructor
      · rw [← horder]
        exact List.mem_toFinset.mpr hmem
      · intro u hu
        refine hmax u ?_
        rw [← horder] at hu
        exact List.mem_toFinset.mp hu

/-- Witness for the amended C7 on the triangle. -/
theorem claim_C7_witness :
    pick_max_degree_vertex [1, 2, 3]
        {({1, 2} : Finset ℕ), ({1, 3} : Finset ℕ), ({2, 3} : Finset ℕ)} ∈
      vertices {({1, 2} : Finset ℕ), ({1, 3} : Finset ℕ), ({2, 3} : Finset ℕ)} ∧
    ∀ v ∈ vertices
        {({1, 2} : Finset ℕ), ({1, 3} : Finset ℕ), ({2, 3} : Finset ℕ)},
      degree v {({1, 2} : Finset ℕ), ({1, 3} : Finset ℕ), ({2, 3} : Finset ℕ)} ≤
        degree (pick_max_degree_vertex [1, 2, 3]
          {({1, 2} : Finset ℕ), ({1, 3} : Finset ℕ), ({2, 3} : Finset ℕ)})
          {({1, 2} : Finset ℕ), ({1, 3} : Finset ℕ), ({2, 3} : Finset ℕ)} :=
  claim_C7_amended _ [1, 2, 3] (by decide) (by rw [vertices]; decide)

/-- The vertex picks of `mhgraph.py` (`max(dict, key=...)`,
`min(counter, key=...)`, `loops[0]`) depend on the implementation-defined
iteration order of Python sets and dicts only through which of several
tied (resp. loop-carrying) vertices they return.  A `Choice` packages the
picks together with exactly what the source guarantees of them whatever
the order. -/
structure Choice where
  pickMax : MHGraph → ℕ
  pickMin : MHGraph → ℕ
  pickLoop : MHGraph → Option ℕ
  pickMax_mem : ∀ G : MHGraph, WfGraph G → pickMax G ∈ vertices G
  pickMin_mem : ∀ G : MHGraph, WfGraph G → pickMin G ∈ vertices G
  pickMin_min : ∀ G : MHGraph, WfGraph G →
    ∀ v ∈ vertices G, degree (pickMin G) G ≤ degree v G
  pickLoop_some : ∀ G v, pickLoop G = some v → ({v} : Finset ℕ) ∈ G
  pickLoop_none : ∀ G v, pickLoop G = none → ({v} : Finset ℕ) ∉ G

/-- `has_double_loop(mhg)` from `sat.py`: `subgraph_search` with the
pattern `{(37): 2}` succeeds exactly when some injective image of the
one-vertex pattern, i.e. some vertex, carries a loop of multiplicity at
least two in `mhg` (the heuristic gate of `subgraph_search` rejects only
graphs of total multiplicity below two, where no such loop exists). -/
def has_double_loop (G : MHGraph) : Bool :=
  decide (∃ h ∈ G.toFinset, h.card = 1 ∧ 2 ≤ G.count h)

/-- `simplify_at_leaves(mhg)` from `sat.py`: if the minimum degree is 1,
drop the hyperedges at that leaf; `True` when nothing remains. -/
def simplify_at_leaves (c : Choice) (G : MHGraph) : Bool ⊕ MHGraph :=
  if 1 < degree (c.pickMin G) G then Sum.inr G
  else if sphr G (c.pickMin G) = 0 then Sum.inl true
  else Sum.inr (sphr G (c.pickMin G))

/-- `simplify_at_loops(mhg)` from `sat.py`: a double loop is `False`; no
loop leaves the graph unchanged; a single loop at `v` projects the graph
away from `v` (`True` when the loop is the whole graph). -/
def simplify_at_loops (c : Choice) (G : MHGraph) : Bool ⊕ MHGraph :=
  if has_double_loop G then Sum.inl false
  else
    match c.pickLoop G with
    | none => Sum.inr G
    | some v =>
        if link G v = 0 ∧ sphr G v = 0 then Sum.inl true
        else Sum.inr (graph_union (sphr G v) (link G v))

/-- The recursion of `simplify_at_leaves_and_loops` with explicit fuel;
every recursive call strictly decreases the total multiplicity, so fuel
`card + 1` always suffices (the fuel-exhausted branch is unreachable). -/
def simplify_fuel (c : Choice) : ℕ → MHGraph → Bool ⊕ MHGraph
  | 0, G => Sum.inr G
  | n + 1, G =>
      match simplify_at_leaves c G with
      | Sum.inl b => Sum.inl b
      | Sum.inr G1 =>
          if G1 ≠ G then simplify_fuel c n G1
          else
            match simplify_at_loops c G1 with
            | Sum.inl b => Sum.inl b
            | Sum.inr G2 =>
                if G2 ≠ G then simplify_fuel c n G2
                else Sum.inr G2

/-- `simplify_at_leaves_and_loops(mhg)` from `sat.py`. -/
def simplify_at_leaves_and_loops (c : Choice) (G : MHGraph) : Bool ⊕ MHGraph :=
  simplify_fuel c (Multiset.card G + 1) G

lemma star_eq_filter_not (G : MHGraph) (v : ℕ) :
    star G v = Multiset.filter (fun h => ¬ v ∉ h) G := by
  rw [star]
  apply Multiset.filter_congr
  intro h _
  exact ⟨fun hm => not_not.mpr hm, fun hm => not_not.mp hm⟩

lemma sphr_card (G : MHGraph) (v : ℕ) :
    Multiset.card (sphr G v) + degree v G = Multiset.card G := by
  rw [sphr, degree]
  have hsplit := Multiset.filter_add_not (fun h => v ∉ h) G
  have hcard := congrArg Multiset.card hsplit
  rw [Multiset.card_add] at hcard
  rw [← star_eq_filter_not] at hcard
  exact hcard

lemma count_sphr_of_not_mem {G : MHGraph} {v : ℕ} {h : HEdge} (hv : v ∉ h) :
    (sphr G v).count h = G.count h := by
  rw [sphr, Multiset.count_filter, if_pos hv]

lemma count_sphr_of_mem {G : MHGraph} {v : ℕ} {h : HEdge} (hv : v ∈ h) :
    (sphr G v).count h = 0 := by
  rw [sphr, Multiset.count_filter, if_neg (not_not.mpr hv)]

lemma count_star {G : MHGraph} {v : ℕ} {h : HEdge} (hv : v ∈ h) :
    (star G v).count h = G.count h := by
  rw [star, Multiset.count_filter, if_pos hv]

/-- The count of an erased hyperedge in the link dominates the count of
its preimage. -/
lemma count_link_ge {G : MHGraph} {v : ℕ} {h : HEdge}
    (hv : v ∈ h) (hne : h ≠ {v}) :
    G.count h ≤ (link G v).count (h.erase v) := by
  rw [link, Multiset.count_map]
  calc G.count h
      = Multiset.count h ((star G v).filter (fun a => a ≠ {v})) := by
        rw [Multiset.count_filter, if_pos hne, count_star hv]
    _ ≤ Multiset.card (Multiset.filter (fun a => h.erase v = a.erase v)
          ((star G v).filter (fun a => a ≠ {v}))) := by
        have hcnt : Multiset.count h
            (Multiset.filter (fun a => h.erase v = a.erase v)
              ((star G v).filter (fun a => a ≠ {v}))) =
            Multiset.count h ((star G v).filter (fun a => a ≠ {v})) := by
          rw [Multiset.count_filter, if_pos rfl]
        rw [← hcnt]
        exact Multiset.count_le_card _ _

lemma degree_ge_count {G : MHGraph} {h : HEdge} {v : ℕ} (hv : v ∈ h) :
    G.count h ≤ degree v G := by
  rw [degree]
  calc G.count h = Multiset.count h (G.filter (fun h' => v ∈ h')) := by
        rw [Multiset.count_filter, if_pos hv]
    _ ≤ _ := Multiset.count_le_card _ _

lemma degree_pos_of_mem_vertices {G : MHGraph} {v : ℕ}
    (hv : v ∈ vertices G) : 0 < degree v G := by
  rw [vertices] at hv
  obtain ⟨h, hh, hvh⟩ := Finset.mem_sup.mp hv
  have hhG : h ∈ G := Multiset.mem_toFinset.mp hh
  have : 1 ≤ G.count h := Multiset.one_le_count_iff_mem.mpr hhG
  calc 0 < G.count h := this
    _ ≤ degree v G := degree_ge_count hvh

lemma sphr_eq_of_degree_zero {G : MHGraph} {v : ℕ}
    (hd : degree v G = 0) : sphr G v = G := by
  rw [sphr]
  apply Multiset.filter_eq_self.mpr
  intro h hh hv
  have h1 : 1 ≤ G.count h := Multiset.one_le_count_iff_mem.mpr hh
  have h2 := degree_ge_count (G := G) hv
  omega

lemma simplify_at_leaves_inl {c : Choice} {G : MHGraph} {b : Bool}
    (h : simplify_at_leaves c G = Sum.inl b) :
    b = true ∧ sphr G (c.pickMin G) = 0 ∧
      degree (c.pickMin G) G ≤ 1 := by
  rw [simplify_at_leaves] at h
  by_cases h1 : 1 < degree (c.pickMin G) G
  · rw [if_pos h1] at h
    exact absurd h (by simp)
  rw [if_neg h1] at h
  by_cases h2 : sphr G (c.pickMin G) = 0
  · rw [if_pos h2] at h
    refine ⟨?_, h2, by omega⟩
    injection h with h
    exact h.symm
  · rw [if_neg h2] at h
    exact absurd h (by simp)

lemma simplify_at_leaves_inr {c : Choice} {G G' : MHGraph}
    (h : simplify_at_leaves c G = Sum.inr G') :
    (G' = G ∧ 1 < degree (c.pickMin G) G) ∨
    (G' = sphr G (c.pickMin G) ∧ degree (c.pickMin G) G ≤ 1 ∧ G' ≠ 0) := by
  rw [simplify_at_leaves] at h
  by_cases h1 : 1 < degree (c.pickMin G) G
  · rw [if_pos h1] at h
    left
    exact ⟨by injection h with h; exact h.symm, h1⟩
  rw [if_neg h1] at h
  by_cases h2 : sphr G (c.pickMin G) = 0
  · rw [if_pos h2] at h
    exact absurd h (by simp)
  · rw [if_neg h2] at h
    right
    refine ⟨by injection h with h; exact h.symm, by omega, ?_⟩
    intro hbad
    injection h with h
    exact h2 (h.trans hbad)

lemma simplify_at_leaves_card {c : Choice} {G G' : MHGraph}
    (h : simplify_at_leaves c G = Sum.inr G') :
    G' = G ∨ Multiset.card G' < Multiset.card G := by
  rcases simplify_at_leaves_inr h with ⟨rfl, _⟩ | ⟨rfl, hdeg, hne⟩
  · exact Or.inl rfl
  · rcases Nat.lt_or_ge 0 (degree (c.pickMin G) G) with hpos | hzero
    · right
      have := sphr_card G (c.pickMin G)
      omega
    · left
      exact sphr_eq_of_degree_zero (by omega)

lemma count_link_singleton (G : MHGraph) (v : ℕ) :
    (link G v).count ({v} : Finset ℕ) = 0 := by
  rw [link, Multiset.count_eq_zero]
  intro hmem
  obtain ⟨h, _, hh⟩ := Multiset.mem_map.mp hmem
  have : v ∈ h.erase v := hh ▸ Finset.mem_singleton_self v
  exact Finset.not_mem_erase v h this

lemma count_union_singleton_zero (G : MHGraph) (v : ℕ) :
    (graph_union (sphr G v) (link G v)).count ({v} : Finset ℕ) = 0 := by
  rw [graph_union, Multiset.count_add, count_link_singleton,
    count_sphr_of_mem (Finset.mem_singleton_self v)]

lemma link_card_lt {G : MHGraph} {v : ℕ} (hv : ({v} : Finset ℕ) ∈ G) :
    Multiset.card (link G v) < Multiset.card (star G v) := by
  rw [link, Multiset.card_map]
  have hsplit := Multiset.filter_add_not (fun a => a ≠ {v}) (star G v)
  have hcard := congrArg Multiset.card hsplit
  rw [Multiset.card_add] at hcard
  have hvstar : ({v} : Finset ℕ) ∈ star G v := by
    rw [star, Multiset.mem_filter]
    exact ⟨hv, Finset.mem_singleton_self v⟩
  have hmem : ({v} : Finset ℕ) ∈
      Multiset.filter (fun a => ¬ a ≠ ({v} : Finset ℕ)) (star G v) := by
    rw [Multiset.mem_filter]
    exact ⟨hvstar, by simp⟩
  have hne : Multiset.filter (fun a => ¬ a ≠ ({v} : Finset ℕ))
      (star G v) ≠ 0 := by
    intro hzero
    rw [hzero] at hmem
    exact Multiset.not_mem_zero _ hmem
  have hpos : 0 < Multiset.card
      (Multiset.filter (fun a => ¬ a ≠ ({v} : Finset ℕ)) (star G v)) :=
    Multiset.card_pos.mpr hne
  calc Multiset.card (Multiset.filter (fun a => a ≠ ({v} : Finset ℕ))
        (star G v))
      < Multiset.card (Multiset.filter (fun a => a ≠ ({v} : Finset ℕ))
          (star G v)) +
        Multiset.card (Multiset.filter (fun a => ¬ a ≠ ({v} : Finset ℕ))
          (star G v)) := Nat.lt_add_of_pos_right hpos
    _ = Multiset.card (star G v) := hcard

lemma simplify_at_loops_inr {c : Choice} {G G' : MHGraph}
    (h : simplify_at_loops c G = Sum.inr G') :
    has_double_loop G = false ∧
    ((G' = G ∧ c.pickLoop G = none) ∨
     (∃ v, c.pickLoop G = some v ∧
        G' = graph_union (sphr G v) (link G v))) := by
  rw [simplify_at_loops] at h
  by_cases hdl : has_double_loop G
  · rw [if_pos hdl] at h
    exact absurd h (by simp)
  rw [if_neg hdl] at h
  refine ⟨by revert hdl; cases has_double_loop G <;> simp, ?_⟩
  rcases hpl : c.pickLoop G with _ | v
  · rw [hpl] at h
    simp only at h
    left
    exact ⟨by injection h with h; exact h.symm, rfl⟩
  · rw [hpl] at h
    simp only at h
    by_cases hz : link G v = 0 ∧ sphr G v = 0
    · rw [if_pos hz] at h
      exact absurd h (by simp)
    · rw [if_neg hz] at h
      right
      exact ⟨v, rfl, by injection h with h; exact h.symm⟩

lemma simplify_at_loops_card {c : Choice} {G G' : MHGraph}
    (h : simplify_at_loops c G = Sum.inr G') :
    G' = G ∨ Multiset.card G' < Multiset.card G := by
  rcases simplify_at_loops_inr h with ⟨_, ⟨rfl, _⟩ | ⟨v, hv, rfl⟩⟩
  · exact Or.inl rfl
  · right
    have hloop := c.pickLoop_some G v hv
    have h1 := link_card_lt hloop
    have h2 := sphr_card G v
    have h3 : degree v G = Multiset.card (star G v) := rfl
    rw [graph_union, Multiset.card_add]
    omega

lemma simplify_fuel_card {c : Choice} :
    ∀ {n : ℕ} {G G' : MHGraph}, simplify_fuel c n G = Sum.inr G' →
      Multiset.card G' ≤ Multiset.card G := by
  intro n
  induction n with
  | zero =>
      intro G G' h
      rw [simplify_fuel] at h
      injection h with h
      rw [h]
  | succ n ih =>
      intro G G' h
      rw [simplify_fuel] at h
      rcases hsl : simplify_at_leaves c G with b | G1
      · rw [hsl] at h
        exact absurd h (by simp)
      rw [hsl] at h
      simp only at h
      by_cases hne : G1 ≠ G
      · rw [if_pos hne] at h
        have hcard : Multiset.card G1 < Multiset.card G := by
          rcases simplify_at_leaves_card hsl with h' | h'
          · exact absurd h' hne
          · exact h'
        exact le_trans (ih h) (le_of_lt hcard)
      · rw [if_neg hne] at h
        rcases hso : simplify_at_loops c G1 with b | G2
        · rw [hso] at h
          simp only at h
          exact absurd h (by simp)
        rw [hso] at h
        simp only at h
        have hG1 : G1 = G := not_not.mp hne
        by_cases hne2 : G2 ≠ G
        · rw [if_pos hne2] at h
          have hcard : Multiset.card G2 < Multiset.card G := by
            rcases simplify_at_loops_card hso with h' | h'
            · rw [hG1] at h'
              exact absurd h' hne2
            · rw [hG1] at h'
              exact h'
          exact le_trans (ih h) (le_of_lt hcard)
        · rw [if_neg hne2] at h
          injection h with h
          rw [h] at hne2
          rw [not_not.mp hne2]

/-- With enough fuel, a graph returned by the simplification loop is a
fixed point of both simplification steps. -/
lemma simplify_fuel_fixed {c : Choice} :
    ∀ {n : ℕ} {G G' : MHGraph}, Multiset.card G < n →
      simplify_fuel c n G = Sum.inr G' →
      simplify_at_leaves c G' = Sum.inr G' ∧
      simplify_at_loops c G' = Sum.inr G' := by
  intro n
  induction n with
  | zero => intro G G' hlt; omega
  | succ n ih =>
      intro G G' hlt h
      rw [simplify_fuel] at h
      rcases hsl : simplify_at_leaves c G with b | G1
      · rw [hsl] at h
        exact absurd h (by simp)
      rw [hsl] at h
      simp only at h
      by_cases hne : G1 ≠ G
      · rw [if_pos hne] at h
        have hcard : Multiset.card G1 < Multiset.card G := by
          rcases simplify_at_leaves_card hsl with h' | h'
          · exact absurd h' hne
          · exact h'
        exact ih (by omega) h
      · rw [if_neg hne] at h
        have hG1 : G1 = G := not_not.mp hne
        rcases hso : simplify_at_loops c G1 with b | G2
        · rw [hso] at h
          simp only at h
          exact absurd h (by simp)
        rw [hso] at h
        simp only at h
        by_cases hne2 : G2 ≠ G
        · rw [if_pos hne2] at h
          have hcard : Multiset.card G2 < Multiset.card G := by
            rcases simplify_at_loops_card hso with h' | h'
            · rw [hG1] at h'
              exact absurd h' hne2
            · rw [hG1] at h'
              exact h'
          exact ih (by omega) h
        · rw [if_neg hne2] at h
          injection h with h
          subst h
          have hGG : G2 = G := not_not.mp hne2
          subst hGG
          rw [hG1] at hsl hso
          exact ⟨hsl, hso⟩

lemma wf_of_le {G H : MHGraph} (hwf : WfGraph G) (hle : H ≤ G)
    (hne : H ≠ 0) : WfGraph H :=
  ⟨hne, fun h hh => hwf.2 h (Multiset.mem_of_le hle hh)⟩

lemma link_edge_props {G : MHGraph} {v : ℕ} (hwf : WfGraph G) :
    ∀ h' ∈ link G v, h'.Nonempty ∧ ∀ u ∈ h', 0 < u := by
  intro h' hh'
  rw [link] at hh'
  obtain ⟨h, hh, rfl⟩ := Multiset.mem_map.mp hh'
  rw [Multiset.mem_filter] at hh
  obtain ⟨hstar, hne⟩ := hh
  rw [star, Multiset.mem_filter] at hstar
  obtain ⟨hG, hv⟩ := hstar
  constructor
  · by_contra hempty
    rw [Finset.not_nonempty_iff_eq_empty] at hempty
    apply hne
    ext u
    constructor
    · intro hu
      by_cases huv : u = v
      · rw [huv]
        exact Finset.mem_singleton_self v
      · exact absurd (Finset.mem_erase.mpr ⟨huv, hu⟩)
          (by rw [hempty]; exact Finset.not_mem_empty u)
    · intro hu
      rw [Finset.mem_singleton.mp hu]
      exact hv
  · intro u hu
    exact (hwf.2 h hG).2 u (Finset.mem_of_mem_erase hu)

lemma wf_graph_union_sphr_link {G : MHGraph} {v : ℕ} (hwf : WfGraph G)
    (hne : ¬(link G v = 0 ∧ sphr G v = 0)) :
    WfGraph (graph_union (sphr G v) (link G v)) := by
  constructor
  · rw [graph_union]
    intro hbad
    have hc := congrArg Multiset.card hbad
    rw [Multiset.card_add] at hc
    simp only [Multiset.card_zero] at hc
    exact hne ⟨Multiset.card_eq_zero.mp (by omega),
      Multiset.card_eq_zero.mp (by omega)⟩
  · intro h hh
    rw [graph_union, Multiset.mem_add] at hh
    rcases hh with hh | hh
    · exact hwf.2 h (Multiset.mem_of_le (Multiset.filter_le _ _) hh)
    · exact link_edge_props hwf h hh

lemma wf_simplify_at_leaves {c : Choice} {G G' : MHGraph}
    (hwf : WfGraph G) (h : simplify_at_leaves c G = Sum.inr G') :
    WfGraph G' := by
  rcases simplify_at_leaves_inr h with ⟨rfl, _⟩ | ⟨rfl, _, hne⟩
  · exact hwf
  · exact wf_of_le hwf (Multiset.filter_le _ _) hne

lemma wf_simplify_at_loops {c : Choice} {G G' : MHGraph}
    (hwf : WfGraph G) (h : simplify_at_loops c G = Sum.inr G') :
    WfGraph G' := by
  rcases simplify_at_loops_inr h with ⟨_, ⟨rfl, _⟩ | ⟨v, hv, rfl⟩⟩
  · exact hwf
  · apply wf_graph_union_sphr_link hwf
    rw [simplify_at_loops] at h
    by_cases hdl : has_double_loop G
    · rw [if_pos hdl] at h
      exact absurd h (by simp)
    rw [if_neg hdl, hv] at h
    simp only at h
    by_cases hz : link G v = 0 ∧ sphr G v = 0
    · rw [if_pos hz] at h
      exact absurd h (by simp)
    · exact hz

lemma wf_simplify_fuel {c : Choice} :
    ∀ {n : ℕ} {G G' : MHGraph}, WfGraph G →
      simplify_fuel c n G = Sum.inr G' → WfGraph G' := by
  intro n
  induction n with
  | zero =>
      intro G G' hwf h
      rw [simplify_fuel] at h
      injection h with h
      exact h ▸ hwf
  | succ n ih =>
      intro G G' hwf h
      rw [simplify_fuel] at h
      rcases hsl : simplify_at_leaves c G with b | G1
      · rw [hsl] at h
        exact absurd h (by simp)
      rw [hsl] at h
      simp only at h
      have hwf1 : WfGraph G1 := wf_simplify_at_leaves hwf hsl
      by_cases hne : G1 ≠ G
      · rw [if_pos hne] at h
        exact ih hwf1 h
      · rw [if_neg hne] at h
        rcases hso : simplify_at_loops c G1 with b | G2
        · rw [hso] at h
          simp only at h
          exact absurd h (by simp)
        rw [hso] at h
        simp only at h
        have hwf2 : WfGraph G2 := wf_simplify_at_loops hwf1 hso
        by_cases hne2 : G2 ≠ G
        · rw [if_pos hne2] at h
          exact ih hwf2 h
        · rw [if_neg hne2] at h
          injection h with h
          exact h ▸ hwf2

/-- At a fixed point of the leaf simplification every vertex has degree
at least 2. -/
lemma fixed_leaves_degree {c : Choice} {G : MHGraph} (hwf : WfGraph G)
    (h : simplify_at_leaves c G = Sum.inr G) :
    ∀ v ∈ vertices G, 2 ≤ degree v G := by
  rcases simplify_at_leaves_inr h with ⟨_, hdeg⟩ | ⟨heq, hdeg, _⟩
  · intro v hv
    calc 2 ≤ degree (c.pickMin G) G := hdeg
      _ ≤ degree v G := c.pickMin_min G hwf v hv
  · exfalso
    have hmem := c.pickMin_mem G hwf
    have hpos := degree_pos_of_mem_vertices hmem
    have hcard := sphr_card G (c.pickMin G)
    have : Multiset.card (sphr G (c.pickMin G)) < Multiset.card G := by
      omega
    rw [← heq] at this
    exact lt_irrefl _ this

/-- At a fixed point of the loop simplification there are no loops. -/
lemma fixed_loops_no_singleton {c : Choice} {G : MHGraph}
    (h : simplify_at_loops c G = Sum.inr G) :
    ∀ v, ({v} : Finset ℕ) ∉ G := by
  rcases simplify_at_loops_inr h with ⟨_, ⟨_, hnone⟩ | ⟨v, hv, heq⟩⟩
  · intro v
    exact c.pickLoop_none G v hnone
  · exfalso
    have hloop := c.pickLoop_some G v hv
    have h1 : G.count ({v} : Finset ℕ) = 0 := by
      rw [heq]
      exact count_union_singleton_zero G v
    have h2 : 1 ≤ G.count ({v} : Finset ℕ) :=
      Multiset.one_le_count_iff_mem.mpr hloop
    omega

lemma hedge_card_two {G : MHGraph} (hwf : WfGraph G)
    (hns : ∀ v, ({v} : Finset ℕ) ∉ G) : ∀ h ∈ G, 2 ≤ h.card := by
  intro h hh
  have hnonempty := (hwf.2 h hh).1
  have hpos : 1 ≤ h.card := Finset.card_pos.mpr hnonempty
  by_contra hlt
  have hone : h.card = 1 := by omega
  obtain ⟨v, hv⟩ := Finset.card_eq_one.mp hone
  exact hns v (hv ▸ hh)

/-- The combined guarantees of the simplification fixed point. -/
lemma simplify_fixed_props {c : Choice} {G G' : MHGraph} (hwf : WfGraph G)
    (h : simplify_at_leaves_and_loops c G = Sum.inr G') :
    WfGraph G' ∧ (∀ h' ∈ G', 2 ≤ h'.card) ∧
    (∀ v ∈ vertices G', 2 ≤ degree v G') ∧
    Multiset.card G' ≤ Multiset.card G ∧
    (∀ v, ({v} : Finset ℕ) ∉ G') := by
  rw [simplify_at_leaves_and_loops] at h
  have hwf' := wf_simplify_fuel hwf h
  obtain ⟨hfl, hfo⟩ := simplify_fuel_fixed (by omega) h
  have hns := fixed_loops_no_singleton hfo
  exact ⟨hwf', hedge_card_two hwf' hns, fixed_leaves_degree hwf' hfl,
    simplify_fuel_card h, hns⟩

/-- Claim C6: when `simplify_at_leaves_and_loops` returns an MHGraph,
every hyperedge has size at least 2 and every vertex degree at least 2,
so the two assertions in `decompose` cannot fail. -/
theorem claim_C6_simplify (c : Choice) (G G' : MHGraph) (hwf : WfGraph G)
    (h : simplify_at_leaves_and_loops c G = Sum.inr G') :
    (∀ h' ∈ G', 2 ≤ h'.card) ∧ (∀ v ∈ vertices G', 2 ≤ degree v G') :=
  ⟨(simplify_fixed_props hwf h).2.1, (simplify_fixed_props hwf h).2.2.1⟩

lemma vertices_nonempty {G : MHGraph} (hwf : WfGraph G) :
    ∃ v, v ∈ vertices G := by
  obtain ⟨h, hh⟩ := Multiset.exists_mem_of_ne_zero hwf.1
  obtain ⟨v, hv⟩ := (hwf.2 h hh).1
  exact ⟨v, mem_vertices hh hv⟩

lemma pick_min_fold {G : MHGraph} :
    ∀ (vs : List ℕ) (v : ℕ),
      (vs.foldl (fun best u =>
          if degree u G < degree best G then u else best) v) ∈ v :: vs ∧
      ∀ u ∈ v :: vs,
        degree (vs.foldl (fun best u =>
          if degree u G < degree best G then u else best) v) G ≤
          degree u G := by
  intro vs
  induction vs with
  | nil =>
      intro v
      refine ⟨List.mem_singleton_self _, ?_⟩
      intro u hu
      rw [List.mem_singleton.mp hu]
      exact le_refl _
  | cons w ws ih =>
      intro v
      by_cases hlt : degree w G < degree v G
      · have h1 := (ih w).1
        have h2 := (ih w).2
        constructor
        · rw [List.foldl_cons, if_pos hlt]
          exact List.mem_cons_of_mem _ h1
        · intro u hu
          rw [List.foldl_cons, if_pos hlt]
          rcases List.mem_cons.mp hu with rfl | hu'
          · exact le_of_lt (lt_of_le_of_lt
              (h2 w (List.mem_cons_self _ _)) hlt)
          · exact h2 u hu'
      · have h1 := (ih v).1
        have h2 := (ih v).2
        constructor
        · rw [List.foldl_cons, if_neg hlt]
          rcases List.mem_cons.mp h1 with h | h
          · exact List.mem_cons.mpr (Or.inl h)
          · exact List.mem_cons_of_mem _ (List.mem_cons_of_mem _ h)
        · intro u hu
          rw [List.foldl_cons, if_neg hlt]
          rcases List.mem_cons.mp hu with rfl | hu'
          · exact h2 u (List.mem_cons_self _ _)
          · rcases List.mem_cons.mp hu' with rfl | hu''
            · exact le_trans (h2 v (List.mem_cons_self _ _))
                (le_of_not_lt hlt)
            · exact h2 u (List.mem_cons_of_mem _ hu'')

/-- `pick_min_degree_vertex` over the canonical vertex order. -/
def pickMinCanon (G : MHGraph) : ℕ :=
  match msort (· ≤ ·) (vertices G).val with
  | [] => 0
  | v :: vs =>
      vs.foldl (fun best u => if degree u G < degree best G then u else best) v

/-- `supports_single_loop` over the canonical vertex order: the first
vertex carrying a loop (`loops[0]`), `none` when there is no loop. -/
def pickLoopCanon (G : MHGraph) : Option ℕ :=
  (msort (· ≤ ·) (vertices G).val).find?
    (fun v => decide (({v} : Finset ℕ) ∈ G))

lemma mem_vertex_order {G : MHGraph} {v : ℕ} :
    v ∈ msort (· ≤ ·) (vertices G).val ↔ v ∈ vertices G := by
  rw [mem_msort]
  exact Iff.rfl

/-- The canonical `Choice`, used to run the algorithm on concrete
inputs. -/
def choiceCanon : Choice where
  pickMax := fun G => pick_max_degree_vertex (msort (· ≤ ·) (vertices G).val) G
  pickMin := pickMinCanon
  pickLoop := pickLoopCanon
  pickMax_mem := by
    intro G hwf
    show pick_max_degree_vertex (msort (· ≤ ·) (vertices G).val) G ∈ vertices G
    obtain ⟨v0, hv0⟩ := vertices_nonempty hwf
    have hmem : v0 ∈ msort (· ≤ ·) (vertices G).val := mem_vertex_order.mpr hv0
    rcases horder : msort (· ≤ ·) (vertices G).val with _ | ⟨v, vs⟩
    · rw [horder] at hmem
      exact absurd hmem (List.not_mem_nil v0)
    · apply mem_vertex_order.mp
      rw [horder]
      exact (pick_max_fold (G := G) vs v).1
  pickMin_mem := by
    intro G hwf
    obtain ⟨v0, hv0⟩ := vertices_nonempty hwf
    have hmem : v0 ∈ msort (· ≤ ·) (vertices G).val := mem_vertex_order.mpr hv0
    rcases horder : msort (· ≤ ·) (vertices G).val with _ | ⟨v, vs⟩
    · rw [horder] at hmem
      exact absurd hmem (List.not_mem_nil v0)
    · have heq : pickMinCanon G =
          vs.foldl (fun best u =>
            if degree u G < degree best G then u else best) v := by
        rw [pickMinCanon, horder]
      rw [heq]
      apply mem_vertex_order.mp
      rw [horder]
      exact (pick_min_fold (G := G) vs v).1
  pickMin_min := by
    intro G hwf u hu
    obtain ⟨v0, hv0⟩ := vertices_nonempty hwf
    have hmem : v0 ∈ msort (· ≤ ·) (vertices G).val := mem_vertex_order.mpr hv0
    rcases horder : msort (· ≤ ·) (vertices G).val with _ | ⟨v, vs⟩
    · rw [horder] at hmem
      exact absurd hmem (List.not_mem_nil v0)
    · have heq : pickMinCanon G =
          vs.foldl (fun best u =>
            if degree u G < degree best G then u else best) v := by
        rw [pickMinCanon, horder]
      rw [heq]
      have humem : u ∈ v :: vs := by
        rw [← horder]
        exact mem_vertex_order.mpr hu
      exact (pick_min_fold (G := G) vs v).2 u humem
  pickLoop_some := by
    intro G v h
    rw [pickLoopCanon] at h
    have := List.find?_some h
    exact of_decide_eq_true this
  pickLoop_none := by
    intro G v h hloop
    rw [pickLoopCanon] at h
    have hv : v ∈ msort (· ≤ ·) (vertices G).val :=
      mem_vertex_order.mpr (mem_vertices hloop (Finset.mem_singleton_self v))
    have := List.find?_eq_none.mp h v hv
    exact this (decide_eq_true hloop)

/-- Witness for C6: the triangle is already simplified, and indeed all
its hyperedges have two vertices and all its vertices degree two. -/
theorem claim_C6_witness :
    (∀ h' ∈ ({({1, 2} : Finset ℕ), ({1, 3} : Finset ℕ),
        ({2, 3} : Finset ℕ)} : MHGraph), 2 ≤ h'.card) ∧
    (∀ v ∈ vertices ({({1, 2} : Finset ℕ), ({1, 3} : Finset ℕ),
        ({2, 3} : Finset ℕ)} : MHGraph),
      2 ≤ degree v ({({1, 2} : Finset ℕ), ({1, 3} : Finset ℕ),
        ({2, 3} : Finset ℕ)} : MHGraph)) :=
  claim_C6_simplify choiceCanon
    ({({1, 2} : Finset ℕ), ({1, 3} : Finset ℕ), ({2, 3} : Finset ℕ)} : MHGraph)
    ({({1, 2} : Finset ℕ), ({1, 3} : Finset ℕ), ({2, 3} : Finset ℕ)} : MHGraph)
    ⟨by decide, by decide⟩ (by decide)

/-! ### The decomposition algorithm of `graph_rewrite.py` -/

/-- All splittings of a list into two (possibly empty) blocks, keeping
the relative order inside each block. -/
def two_partitions_aux {α : Type} : List α → List (List α × List α)
  | [] => [([], [])]
  | x :: xs =>
      (two_partitions_aux xs).flatMap
        (fun p => [(x :: p.1, p.2), (p.1, x :: p.2)])

/-- `mit.set_partitions(l, 2)`: every partition of the positions of `l`
into two nonempty blocks, each partition listed once, oriented with the
first element of `l` in the first block. -/
def two_partitions {α : Type} (l : List α) : List (List α × List α) :=
  match l with
  | [] => []
  | x :: xs =>
      ((two_partitions_aux xs).map (fun p => (x :: p.1, p.2))).filter
        (fun p => !p.2.isEmpty)

/-- `satcheck_partition(mhg, sphr, hyp1_hyp2)` from `graph_rewrite.py`,
with the recursive `decompose` passed as the parameter `d`
(`satcheck_independent` is inlined as the disjunction of the two
recursive calls, exactly as its body reads). -/
def satcheck_partition (d : MHGraph → Bool) (s : MHGraph)
    (hyp1 hyp2 : List HEdge) : Bool :=
  if is_oversaturated ↑hyp1 && is_oversaturated ↑hyp2 then false
  else if is_oversaturated ↑hyp1 then d (graph_union s ↑hyp2)
  else if is_oversaturated ↑hyp2 then d (graph_union s ↑hyp1)
  else if d (graph_union s ↑hyp1) || d (graph_union s ↑hyp2) then true
  else
    satcheck_entangled (cnfs_from_mhgraph s)
      (cnfs_from_mhgraph ↑hyp1) (cnfs_from_mhgraph ↑hyp2)

/-- `decompose_at_vertex(mhg, vertex)` from `graph_rewrite.py` (with
`hyperbolic_only=False`, the default used by `decompose`): the star case
for an empty sphere, the over-saturation cut, and the conjunction of
`satcheck_partition` over all two-partitions of the link. -/
def decompose_at_vertex (d : MHGraph → Bool) (G : MHGraph) (v : ℕ) : Bool :=
  if sphr G v = 0 then
    (two_partitions (elementsList (link G v))).all
      (fun p => d ↑p.1 || d ↑p.2)
  else if is_oversaturated (sphr G v) then false
  else
    (two_partitions (elementsList (link G v))).all
      (fun p => satcheck_partition d (sphr G v) p.1 p.2)

/-- `decompose(mhg)` from `graph_rewrite.py` with explicit recursion
fuel: simplify, then decompose at the max-degree vertex.  Every
recursive call is on a graph of strictly smaller total multiplicity, so
fuel `card + 1` always suffices. -/
def decomposeB (c : Choice) : ℕ → MHGraph → Bool
  | 0, _ => false
  | fuel + 1, G =>
      match simplify_at_leaves_and_loops c G with
      | Sum.inl b => b
      | Sum.inr G' =>
          decompose_at_vertex (decomposeB c fuel) G' (c.pickMax G')

lemma decomposeB_succ (c : Choice) (fuel : ℕ) (G : MHGraph) :
    decomposeB c (fuel + 1) G =
      match simplify_at_leaves_and_loops c G with
      | Sum.inl b => b
      | Sum.inr G' =>
          decompose_at_vertex (decomposeB c fuel) G' (c.pickMax G') := rfl

/-- `decompose(mhg)` from `graph_rewrite.py`. -/
def decompose (c : Choice) (G : MHGraph) : Bool :=
  decomposeB c (Multiset.card G + 1) G

/-- A graph carrying a saturated hyperedge: some hyperedge of size `k`
has multiplicity at least `2^k`. -/
def SatEdge (G : MHGraph) : Prop :=
  ∃ h, h ∈ G ∧ 2 ^ h.card ≤ G.count h

lemma sphr_eq_zero_mem {G : MHGraph} {v : ℕ} (h : sphr G v = 0) :
    ∀ g ∈ G, v ∈ g := by
  intro g hg
  by_contra hvg
  have hmem : g ∈ sphr G v := Multiset.mem_filter.mpr ⟨hg, hvg⟩
  rw [h] at hmem
  exact Multiset.not_mem_zero _ hmem

lemma is_oversaturated_eq_false {G : MHGraph} :
    is_oversaturated G = false ↔ ∀ h ∈ G, G.count h ≤ 2 ^ h.card := by
  rw [is_oversaturated, decide_eq_false_iff_not]
  constructor
  · intro hno h hh
    by_contra hlt
    exact hno ⟨h, Multiset.mem_toFinset.mpr hh, by omega⟩
  · intro hall ⟨h, hh, hlt⟩
    have := hall h (Multiset.mem_toFinset.mp hh)
    omega

lemma mem_items_elim {G : MHGraph} {p : HEdge × ℕ} (hp : p ∈ items G) :
    p.1 ∈ G ∧ p.2 = G.count p.1 := by
  rw [items] at hp
  obtain ⟨h, hh, rfl⟩ := List.mem_map.mp hp
  exact ⟨Multiset.mem_toFinset.mp (mem_msort.mp hh), rfl⟩

lemma degree_le_card (v : ℕ) (G : MHGraph) :
    degree v G ≤ Multiset.card G :=
  Multiset.card_le_card (Multiset.filter_le _ _)

lemma two_partitions_aux_sound {α : Type} :
    ∀ {l : List α} {p : List α × List α}, p ∈ two_partitions_aux l →
      (↑p.1 : Multiset α) + ↑p.2 = ↑l := by
  intro l
  induction l with
  | nil =>
      intro p hp
      rw [two_partitions_aux] at hp
      rcases List.mem_singleton.mp hp with rfl
      rfl
  | cons x xs ih =>
      intro p hp
      rw [two_partitions_aux] at hp
      rcases List.mem_flatMap.mp hp with ⟨q, hq, hpq⟩
      have hsum := ih hq
      rcases List.mem_cons.mp hpq with rfl | hpq'
      · show (↑(x :: q.1) : Multiset α) + ↑q.2 = ↑(x :: xs)
        rw [← Multiset.cons_coe, ← Multiset.cons_coe, Multiset.cons_add, hsum]
      · rcases List.mem_singleton.mp hpq' with rfl
        show (↑q.1 : Multiset α) + ↑(x :: q.2) = ↑(x :: xs)
        rw [← Multiset.cons_coe, ← Multiset.cons_coe, Multiset.add_cons, hsum]

lemma two_partitions_sound {α : Type} {l : List α} {p : List α × List α}
    (hp : p ∈ two_partitions l) :
    (↑p.1 : Multiset α) + ↑p.2 = ↑l ∧ p.1 ≠ [] ∧ p.2 ≠ [] := by
  match l with
  | [] => exact absurd hp (List.not_mem_nil p)
  | x :: xs =>
      rw [two_partitions] at hp
      have hfil := List.mem_filter.mp hp
      rcases List.mem_map.mp hfil.1 with ⟨q, hq, rfl⟩
      refine ⟨?_, by simp, ?_⟩
      · show (↑(x :: q.1) : Multiset α) + ↑q.2 = ↑(x :: xs)
        rw [← Multiset.cons_coe, ← Multiset.cons_coe, Multiset.cons_add,
          two_partitions_aux_sound hq]
      · have := hfil.2
        simp only [Bool.not_eq_eq_eq_not, Bool.not_false] at this
        intro hnil
        rw [hnil] at this
        simp at this

lemma two_partitions_aux_realize {α : Type} [DecidableEq α] :
    ∀ {l : List α} {A B : Multiset α}, A + B = ↑l →
      ∃ p ∈ two_partitions_aux l, (↑p.1 : Multiset α) = A ∧
        (↑p.2 : Multiset α) = B := by
  intro l
  induction l with
  | nil =>
      intro A B hAB
      have hcard := congrArg Multiset.card hAB
      rw [Multiset.card_add] at hcard
      simp only [Multiset.coe_nil, Multiset.card_zero] at hcard
      have hA : A = 0 := Multiset.card_eq_zero.mp (by omega)
      have hB : B = 0 := Multiset.card_eq_zero.mp (by omega)
      exact ⟨([], []), List.mem_singleton.mpr rfl, by simp [hA], by simp [hB]⟩
  | cons x xs ih =>
      intro A B hAB
      have hx : x ∈ A + B := by
        rw [hAB, ← Multiset.cons_coe]
        exact Multiset.mem_cons_self x ↑xs
      rcases Multiset.mem_add.mp hx with hxA | hxB
      · have hA : x ::ₘ A.erase x = A := Multiset.cons_erase hxA
        have hrest : A.erase x + B = ↑xs := by
          have : x ::ₘ (A.erase x + B) = x ::ₘ (↑xs : Multiset α) := by
            rw [← Multiset.cons_add, hA, hAB, Multiset.cons_coe]
          exact (Multiset.cons_inj_right x).mp this
        obtain ⟨q, hq, hq1, hq2⟩ := ih hrest
        refine ⟨(x :: q.1, q.2), ?_, ?_, hq2⟩
        · rw [two_partitions_aux]
          exact List.mem_flatMap.mpr ⟨q, hq, List.mem_cons_self _ _⟩
        · show (↑(x :: q.1) : Multiset α) = A
          rw [← Multiset.cons_coe, hq1, hA]
      · have hB : x ::ₘ B.erase x = B := Multiset.cons_erase hxB
        have hrest : A + B.erase x = ↑xs := by
          have : x ::ₘ (A + B.erase x) = x ::ₘ (↑xs : Multiset α) := by
            rw [← Multiset.add_cons, hB, hAB, Multiset.cons_coe]
          exact (Multiset.cons_inj_right x).mp this
        obtain ⟨q, hq, hq1, hq2⟩ := ih hrest
        refine ⟨(q.1, x :: q.2), ?_, hq1, ?_⟩
        · rw [two_partitions_aux]
          refine List.mem_flatMap.mpr ⟨q, hq, ?_⟩
          exact List.mem_cons.mpr (Or.inr (List.mem_singleton.mpr rfl))
        · show (↑(x :: q.2) : Multiset α) = B
          rw [← Multiset.cons_coe, hq2, hB]

/-- Any split of the underlying multiset into two nonempty halves is
realised by some enumerated two-partition, up to orientation. -/
lemma two_partitions_realize {α : Type} [DecidableEq α] {l : List α}
    {A B : Multiset α} (hAB : A + B = ↑l) (hA : A ≠ 0) (hB : B ≠ 0) :
    ∃ p ∈ two_partitions l,
      ((↑p.1 : Multiset α) = A ∧ (↑p.2 : Multiset α) = B) ∨
      ((↑p.1 : Multiset α) = B ∧ (↑p.2 : Multiset α) = A) := by
  match l with
  | [] =>
      exfalso
      have hcard := congrArg Multiset.card hAB
      rw [Multiset.card_add] at hcard
      simp only [Multiset.coe_nil, Multiset.card_zero] at hcard
      exact hA (Multiset.card_eq_zero.mp (by omega))
  | x :: xs =>
      have hx : x ∈ A + B := by
        rw [hAB, ← Multiset.cons_coe]
        exact Multiset.mem_cons_self x ↑xs
      rcases Multiset.mem_add.mp hx with hxA | hxB
      · have hrest : A.erase x + B = ↑xs := by
          have : x ::ₘ (A.erase x + B) = x ::ₘ (↑xs : Multiset α) := by
            rw [← Multiset.cons_add, Multiset.cons_erase hxA, hAB,
              Multiset.cons_coe]
          exact (Multiset.cons_inj_right x).mp this
        obtain ⟨q, hq, hq1, hq2⟩ := two_partitions_aux_realize hrest
        refine ⟨(x :: q.1, q.2), ?_, Or.inl ⟨?_, hq2⟩⟩
        · rw [two_partitions]
          refine List.mem_filter.mpr ⟨List.mem_map.mpr ⟨q, hq, rfl⟩, ?_⟩
          have hqne : q.2 ≠ [] := by
            intro hnil
            apply hB
            rw [← hq2, hnil]
            rfl
          simp [hqne]
        · show (↑(x :: q.1) : Multiset α) = A
          rw [← Multiset.cons_coe, hq1, Multiset.cons_erase hxA]
      · have hrest : B.erase x + A = ↑xs := by
          have : x ::ₘ (B.erase x + A) = x ::ₘ (↑xs : Multiset α) := by
            rw [← Multiset.cons_add, Multiset.cons_erase hxB, add_comm B A,
              hAB, Multiset.cons_coe]
          exact (Multiset.cons_inj_right x).mp this
        obtain ⟨q, hq, hq1, hq2⟩ := two_partitions_aux_realize hrest
        refine ⟨(x :: q.1, q.2), ?_, Or.inr ⟨?_, hq2⟩⟩
        · rw [two_partitions]
          refine List.mem_filter.mpr ⟨List.mem_map.mpr ⟨q, hq, rfl⟩, ?_⟩
          have hqne : q.2 ≠ [] := by
            intro hnil
            apply hA
            rw [← hq2, hnil]
            rfl
          simp [hqne]
        · show (↑(x :: q.1) : Multiset α) = B
          rw [← Multiset.cons_coe, hq1, Multiset.cons_erase hxB]

lemma two_partitions_aux_mem_nil {α : Type} :
    ∀ (l : List α), ([], l) ∈ two_partitions_aux l := by
  intro l
  induction l with
  | nil => exact List.mem_singleton.mpr rfl
  | cons x xs ih =>
      rw [two_partitions_aux]
      refine List.mem_flatMap.mpr ⟨([], xs), ih, ?_⟩
      exact List.mem_cons.mpr (Or.inr (List.mem_singleton.mpr rfl))

lemma two_partitions_mem_head {α : Type} (x : α) {xs : List α}
    (hne : xs ≠ []) : ([x], xs) ∈ two_partitions (x :: xs) := by
  rw [two_partitions]
  refine List.mem_filter.mpr ⟨?_, by simp [hne]⟩
  exact List.mem_map.mpr ⟨([], xs), two_partitions_aux_mem_nil xs, rfl⟩

lemma coe_flatMap_replicate :
    ∀ (L : List (HEdge × ℕ)),
      (↑(L.flatMap fun p => List.replicate p.2 p.1) : Multiset HEdge) =
        (Multiset.map (fun p : HEdge × ℕ => Multiset.replicate p.2 p.1)
          (↑L : Multiset (HEdge × ℕ))).sum := by
  intro L
  induction L with
  | nil => rfl
  | cons a t ih =>
      rw [List.flatMap_cons, ← Multiset.coe_add, ih, ← Multiset.cons_coe,
        Multiset.map_cons, Multiset.sum_cons, Multiset.coe_replicate]

/-- The `elements()` list of an MHGraph carries exactly its multiset. -/
lemma elementsList_coe (G : MHGraph) :
    (↑(elementsList G) : Multiset HEdge) = G := by
  rw [elementsList, coe_flatMap_replicate, items, ← Multiset.map_coe,
    Multiset.map_map, msort_perm]
  have hmap : Multiset.map
      ((fun p => Multiset.replicate p.2 p.1) ∘ fun h => (h, G.count h))
      G.toFinset.val =
      Multiset.map (fun h => G.count h • ({h} : Multiset HEdge))
        G.toFinset.val := by
    apply Multiset.map_congr rfl
    intro h _
    show Multiset.replicate (G.count h) h = G.count h • ({h} : Multiset HEdge)
    rw [Multiset.nsmul_singleton]
  rw [hmap]
  exact Multiset.toFinset_sum_count_nsmul_eq G

lemma elementsList_length (G : MHGraph) :
    (elementsList G).length = Multiset.card G := by
  have := congrArg Multiset.card (elementsList_coe G)
  rw [Multiset.coe_card] at this
  exact this

lemma cnfsFromItems_eq_nil_of_mem :
    ∀ {l : List (HEdge × ℕ)} {p : HEdge × ℕ}, p ∈ l →
      cnfs_from_hedgeN p.1 p.2 = [] → cnfsFromItems l = [] := by
  intro l
  induction l with
  | nil =>
      intro p hp _
      exact absurd hp (List.not_mem_nil p)
  | cons a t ih =>
      intro p hp hnil
      obtain ⟨h, m⟩ := a
      rw [cnfsFromItems]
      rcases List.mem_cons.mp hp with rfl | hp'
      · rw [hnil]
        rfl
      · rw [ih hp' hnil]
        simp

/-- An over-saturated MHGraph supports no Cnf at all: the factor of the
over-saturated hyperedge is empty, so the whole product is. -/
lemma cnfs_from_mhgraph_eq_nil {G : MHGraph}
    (hover : is_oversaturated G = true) : cnfs_from_mhgraph G = [] := by
  rw [is_oversaturated, decide_eq_true_eq] at hover
  obtain ⟨h, hh, hlt⟩ := hover
  rw [cnfs_from_mhgraph]
  apply cnfsFromItems_eq_nil_of_mem (mem_items hh)
  exact cnfs_from_hedgeN_eq_nil hlt

/-- A graph that is not over-saturated supports at least one Cnf. -/
lemma cnfs_from_mhgraph_ne_nil {G : MHGraph}
    (hno : is_oversaturated G = false) : cnfs_from_mhgraph G ≠ [] := by
  intro hnil
  have hlen := cnfsFromItems_length (items G)
  rw [← cnfs_from_mhgraph, hnil] at hlen
  simp only [List.length_nil] at hlen
  have hpos : 0 < ((items G).map
      (fun p => Nat.choose (2 ^ p.1.card) p.2)).prod := by
    apply List.prod_pos
    intro x hx
    rcases List.mem_map.mp hx with ⟨p, hp, rfl⟩
    obtain ⟨hmem, hcount⟩ := mem_items_elim hp
    have hle : p.2 ≤ 2 ^ p.1.card := by
      rw [hcount]
      exact is_oversaturated_eq_false.mp hno p.1 hmem
    exact Nat.choose_pos hle
  omega

/-- Every Cnf in the product contains, for each item, a component
drawn from that item. -/
lemma cnfsFromItems_component :
    ∀ {l : List (HEdge × ℕ)} {C : Cnf}, C ∈ cnfsFromItems l →
      ∀ p ∈ l, ∃ D ∈ cnfs_from_hedgeN p.1 p.2, D ⊆ C := by
  intro l
  induction l with
  | nil =>
      intro C _ p hp
      exact absurd hp (List.not_mem_nil p)
  | cons a t ih =>
      intro C hC p hp
      obtain ⟨h, m⟩ := a
      rw [cnfsFromItems] at hC
      rcases List.mem_flatMap.mp hC with ⟨x, hx, hxy⟩
      rcases List.mem_map.mp hxy with ⟨y, hy, rfl⟩
      rcases List.mem_cons.mp hp with rfl | hp'
      · exact ⟨x, hx, Finset.subset_union_left⟩
      · obtain ⟨D, hD, hDsub⟩ := ih hy p hp'
        exact ⟨D, hD, hDsub.trans Finset.subset_union_right⟩

/-- If a hyperedge is exactly saturated then every supported Cnf of the
graph contains all `2^|h|` clauses on that hyperedge. -/
lemma cnfs_all_clauses {G : MHGraph} {h : HEdge} (hmem : h ∈ G)
    (hexact : G.count h = 2 ^ h.card) :
    ∀ C ∈ cnfs_from_mhgraph G, ∀ S ∈ clauses_from_hedge h, S ∈ C := by
  intro C hC S hS
  have hp : (h, G.count h) ∈ items G :=
    mem_items (Multiset.mem_toFinset.mpr hmem)
  obtain ⟨D, hD, hsub⟩ := cnfsFromItems_component hC (h, G.count h) hp
  exact hsub (cnfs_from_hedgeN_saturated hexact hD S hS)

/-- If both conjunctions are unsatisfiable all over, the entangled check
fails (the lists being nonempty). -/
lemma satcheck_entangled_false {ls l1 l2 : List Cnf}
    (hs : ls ≠ []) (h1 : l1 ≠ []) (h2 : l2 ≠ [])
    (hu1 : ∀ xs ∈ ls, ∀ x ∈ l1, cnf_sat (cnf_and_cnf xs x) = false)
    (hu2 : ∀ xs ∈ ls, ∀ x ∈ l2, cnf_sat (cnf_and_cnf xs x) = false) :
    satcheck_entangled ls l1 l2 = false := by
  obtain ⟨a, ha⟩ := List.exists_mem_of_ne_nil ls hs
  obtain ⟨b, hb⟩ := List.exists_mem_of_ne_nil l1 h1
  obtain ⟨e, he⟩ := List.exists_mem_of_ne_nil l2 h2
  cases hval : satcheck_entangled ls l1 l2 with
  | false => rfl
  | true =>
      exfalso
      rw [satcheck_entangled, List.all_eq_true] at hval
      have hva := hval a ha
      rw [List.all_eq_true] at hva
      have hvb := hva b hb
      rcases (Bool.or_eq_true _ _).mp hvb with hx | hall
      · rw [hu1 a ha b hb] at hx
        exact Bool.false_ne_true hx
      · rw [List.all_eq_true] at hall
        have hve := hall e he
        rw [hu2 a ha e he] at hve
        exact Bool.false_ne_true hve

lemma wf_graph_union {G1 G2 : MHGraph} (h1 : WfGraph G1)
    (h2 : WfGraph G2) : WfGraph (graph_union G1 G2) := by
  constructor
  · rw [graph_union]
    intro h0
    have hc := congrArg Multiset.card h0
    rw [Multiset.card_add] at hc
    simp only [Multiset.card_zero] at hc
    exact h1.1 (Multiset.card_eq_zero.mp (by omega))
  · intro g hg
    rw [graph_union, Multiset.mem_add] at hg
    rcases hg with hg | hg
    · exact h1.2 g hg
    · exact h2.2 g hg

lemma wf_coe_of_le_link {G : MHGraph} {v : ℕ} (hwf : WfGraph G)
    {l : List HEdge} (hne : l ≠ [])
    (hle : (↑l : Multiset HEdge) ≤ link G v) :
    WfGraph (↑l : Multiset HEdge) := by
  constructor
  · intro h0
    exact hne ((Multiset.coe_eq_zero l).mp h0)
  · intro g hg
    exact link_edge_props hwf g (Multiset.mem_of_le hle hg)

lemma satEdge_union_left {G1 G2 : MHGraph} {h : HEdge} (hm : h ∈ G1)
    (hs : 2 ^ h.card ≤ G1.count h) : SatEdge (graph_union G1 G2) := by
  refine ⟨h, ?_, ?_⟩
  · rw [graph_union, Multiset.mem_add]
    exact Or.inl hm
  · rw [graph_union, Multiset.count_add]
    omega

lemma satEdge_union_right {G1 G2 : MHGraph} {h : HEdge} (hm : h ∈ G2)
    (hs : 2 ^ h.card ≤ G2.count h) : SatEdge (graph_union G1 G2) := by
  refine ⟨h, ?_, ?_⟩
  · rw [graph_union, Multiset.mem_add]
    exact Or.inr hm
  · rw [graph_union, Multiset.count_add]
    omega

/-- Without loops the link has exactly `degree v` members. -/
lemma link_card_eq_degree {G : MHGraph} {v : ℕ}
    (h2 : ∀ h ∈ G, 2 ≤ h.card) :
    Multiset.card (link G v) = degree v G := by
  rw [link]
  have hfil : (star G v).filter (fun a => a ≠ ({v} : Finset ℕ)) =
      star G v := by
    apply Multiset.filter_eq_self.mpr
    intro g hg heq
    have hgG : g ∈ G := Multiset.mem_of_le (Multiset.filter_le _ _) hg
    have := h2 g hgG
    rw [heq] at this
    simp at this
  rw [hfil, Multiset.card_map]
  rfl

lemma satEdge_degree {G : MHGraph} {h : HEdge} (hm : h ∈ G)
    (hs : 2 ^ h.card ≤ G.count h) (hc : 1 ≤ h.card) :
    ∀ u ∈ h, 2 ≤ degree u G := by
  intro u hu
  have h2 : 2 ≤ 2 ^ h.card := by
    calc 2 = 2 ^ 1 := by norm_num
      _ ≤ 2 ^ h.card := Nat.pow_le_pow_right (by norm_num) hc
  calc 2 ≤ G.count h := by omega
    _ ≤ degree u G := degree_ge_count hu

lemma satEdge_leaves {c : Choice} {G G' : MHGraph} (hwf : WfGraph G)
    (hs : SatEdge G) (h : simplify_at_leaves c G = Sum.inr G') :
    SatEdge G' := by
  obtain ⟨e, heG, hesat⟩ := hs
  rcases simplify_at_leaves_inr h with ⟨rfl, _⟩ | ⟨rfl, hdeg1, _⟩
  · exact ⟨e, heG, hesat⟩
  · have hc1 : 1 ≤ e.card := Finset.card_pos.mpr (hwf.2 e heG).1
    have hvnot : c.pickMin G ∉ e := by
      intro hin
      have := satEdge_degree heG hesat hc1 _ hin
      omega
    refine ⟨e, Multiset.mem_filter.mpr ⟨heG, hvnot⟩, ?_⟩
    rw [count_sphr_of_not_mem hvnot]
    exact hesat

lemma satEdge_leaves_ne_true {c : Choice} {G : MHGraph} (hwf : WfGraph G)
    (hs : SatEdge G) : simplify_at_leaves c G ≠ Sum.inl true := by
  intro h
  obtain ⟨_, hsphr0, hdeg1⟩ := simplify_at_leaves_inl h
  obtain ⟨e, heG, hesat⟩ := hs
  have hc1 : 1 ≤ e.card := Finset.card_pos.mpr (hwf.2 e heG).1
  have hvin : c.pickMin G ∈ e := sphr_eq_zero_mem hsphr0 e heG
  have := satEdge_degree heG hesat hc1 _ hvin
  omega

lemma satEdge_loops_ne_true {c : Choice} {G : MHGraph} (hwf : WfGraph G)
    (hs : SatEdge G) : simplify_at_loops c G ≠ Sum.inl true := by
  intro hlt
  rw [simplify_at_loops] at hlt
  by_cases hdl : has_double_loop G = true
  · rw [if_pos hdl] at hlt
    injection hlt with hlt
    exact Bool.false_ne_true hlt
  rw [if_neg hdl] at hlt
  rcases hpl : c.pickLoop G with _ | v
  · rw [hpl] at hlt
    simp only at hlt
    exact absurd hlt (by simp)
  rw [hpl] at hlt
  simp only at hlt
  by_cases hz : link G v = 0 ∧ sphr G v = 0
  · obtain ⟨e, heG, hesat⟩ := hs
    have hvin : v ∈ e := sphr_eq_zero_mem hz.2 e heG
    have heq : e = ({v} : Finset ℕ) := by
      by_contra hne
      have hmem : e.erase v ∈ link G v := by
        rw [link]
        refine Multiset.mem_map.mpr ⟨e, ?_, rfl⟩
        refine Multiset.mem_filter.mpr ⟨?_, hne⟩
        exact Multiset.mem_filter.mpr ⟨heG, hvin⟩
      rw [hz.1] at hmem
      exact Multiset.not_mem_zero _ hmem
    apply hdl
    rw [has_double_loop]
    apply decide_eq_true
    refine ⟨({v} : Finset ℕ), Multiset.mem_toFinset.mpr (heq ▸ heG),
      Finset.card_singleton v, ?_⟩
    have hce : e.card = 1 := by rw [heq]; exact Finset.card_singleton v
    rw [hce] at hesat
    rw [← heq]
    omega
  · rw [if_neg hz] at hlt
    exact absurd hlt (by simp)

lemma satEdge_loops {c : Choice} {G G' : MHGraph} (hwf : WfGraph G)
    (hs : SatEdge G) (h : simplify_at_loops c G = Sum.inr G') :
    SatEdge G' := by
  obtain ⟨hdl, hcase⟩ := simplify_at_loops_inr h
  obtain ⟨e, heG, hesat⟩ := hs
  rcases hcase with ⟨rfl, _⟩ | ⟨v, hv, rfl⟩
  · exact ⟨e, heG, hesat⟩
  by_cases hvin : v ∈ e
  · have hne : e ≠ ({v} : Finset ℕ) := by
      intro heq
      have hdl2 : has_double_loop G = true := by
        rw [has_double_loop]
        apply decide_eq_true
        refine ⟨({v} : Finset ℕ), Multiset.mem_toFinset.mpr (heq ▸ heG),
          Finset.card_singleton v, ?_⟩
        have hce : e.card = 1 := by rw [heq]; exact Finset.card_singleton v
        rw [hce] at hesat
        rw [← heq]
        omega
      rw [hdl] at hdl2
      exact Bool.false_ne_true hdl2
    have hcard : (e.erase v).card + 1 = e.card := by
      rw [Finset.card_erase_of_mem hvin]
      have : 1 ≤ e.card := Finset.card_pos.mpr (hwf.2 e heG).1
      omega
    have hsat' : 2 ^ (e.erase v).card ≤
        (graph_union (sphr G v) (link G v)).count (e.erase v) := by
      have hle1 : G.count e ≤ (link G v).count (e.erase v) :=
        count_link_ge hvin hne
      have hpow : 2 ^ (e.erase v).card ≤ 2 ^ e.card :=
        Nat.pow_le_pow_right (by norm_num) (by omega)
      rw [graph_union, Multiset.count_add]
      omega
    refine ⟨e.erase v, ?_, hsat'⟩
    apply Multiset.count_pos.mp
    have hpow : 0 < 2 ^ (e.erase v).card := Nat.pos_pow_of_pos _ (by norm_num)
    omega
  · refine ⟨e, ?_, ?_⟩
    · rw [graph_union, Multiset.mem_add]
      exact Or.inl (Multiset.mem_filter.mpr ⟨heG, hvin⟩)
    · rw [graph_union, Multiset.count_add, count_sphr_of_not_mem hvin]
      omega

lemma satEdge_simplify_fuel {c : Choice} :
    ∀ {n : ℕ} {G : MHGraph}, WfGraph G → SatEdge G →
      simplify_fuel c n G ≠ Sum.inl true ∧
      (∀ G', simplify_fuel c n G = Sum.inr G' → SatEdge G') := by
  intro n
  induction n with
  | zero =>
      intro G _ hs
      constructor
      · rw [simplify_fuel]
        simp
      · intro G' h
        rw [simplify_fuel] at h
        injection h with h
        exact h ▸ hs
  | succ n ih =>
      intro G hwf hs
      rcases hsl : simplify_at_leaves c G with b | G1
      · have hb : b = true := (simplify_at_leaves_inl hsl).1
        exact absurd (hb ▸ hsl) (satEdge_leaves_ne_true hwf hs)
      have hwf1 : WfGraph G1 := wf_simplify_at_leaves hwf hsl
      have hs1 : SatEdge G1 := satEdge_leaves hwf hs hsl
      by_cases hne : G1 ≠ G
      · have hunf : simplify_fuel c (n + 1) G = simplify_fuel c n G1 := by
          rw [simplify_fuel, hsl]
          simp only
          rw [if_pos hne]
        rw [hunf]
        exact ih hwf1 hs1
      rcases hso : simplify_at_loops c G1 with b | G2
      · rcases b with _ | _
        · have hunf : simplify_fuel c (n + 1) G = Sum.inl false := by
            rw [simplify_fuel, hsl]
            simp only
            rw [if_neg hne, hso]
          rw [hunf]
          exact ⟨by simp, fun G' h => absurd h (by simp)⟩
        · exact absurd hso (satEdge_loops_ne_true hwf1 hs1)
      have hwf2 : WfGraph G2 := wf_simplify_at_loops hwf1 hso
      have hs2 : SatEdge G2 := satEdge_loops hwf1 hs1 hso
      by_cases hne2 : G2 ≠ G
      · have hunf : simplify_fuel c (n + 1) G = simplify_fuel c n G2 := by
          rw [simplify_fuel, hsl]
          simp only
          rw [if_neg hne, hso]
          simp only
          rw [if_pos hne2]
        rw [hunf]
        exact ih hwf2 hs2
      · have hunf : simplify_fuel c (n + 1) G = Sum.inr G2 := by
          rw [simplify_fuel, hsl]
          simp only
          rw [if_neg hne, hso]
          simp only
          rw [if_neg hne2]
        rw [hunf]
        refine ⟨by simp, fun G' h => ?_⟩
        injection h with h
        exact h ▸ hs2

lemma satEdge_simplify {c : Choice} {G G' : MHGraph} (hwf : WfGraph G)
    (hs : SatEdge G) (h : simplify_at_leaves_and_loops c G = Sum.inr G') :
    SatEdge G' :=
  (satEdge_simplify_fuel hwf hs).2 G' h

lemma satEdge_simplify_ne_true {c : Choice} {G : MHGraph}
    (hwf : WfGraph G) (hs : SatEdge G) :
    simplify_at_leaves_and_loops c G ≠ Sum.inl true :=
  (satEdge_simplify_fuel hwf hs).1

/-- Walking the branches of `satcheck_partition`: if both recursive
calls come back false and the entangled check fails whenever it is
reached, the partition term is false. -/
lemma satcheck_term_false {d : MHGraph → Bool} {s : MHGraph}
    {l1 l2 : List HEdge}
    (hd1 : d (graph_union s ↑l1) = false)
    (hd2 : d (graph_union s ↑l2) = false)
    (hent : is_oversaturated (↑l1 : MHGraph) = false →
      is_oversaturated (↑l2 : MHGraph) = false →
      satcheck_entangled (cnfs_from_mhgraph s)
        (cnfs_from_mhgraph ↑l1) (cnfs_from_mhgraph ↑l2) = false) :
    satcheck_partition d s l1 l2 = false := by
  rw [satcheck_partition]
  by_cases ho1 : is_oversaturated (↑l1 : MHGraph) = true
  · by_cases ho2 : is_oversaturated (↑l2 : MHGraph) = true
    · rw [if_pos (by rw [Bool.and_eq_true]; exact ⟨ho1, ho2⟩)]
    · rw [if_neg (by rw [Bool.and_eq_true]; tauto), if_pos ho1]
      exact hd2
  · by_cases ho2 : is_oversaturated (↑l2 : MHGraph) = true
    · rw [if_neg (by rw [Bool.and_eq_true]; tauto), if_neg ho1, if_pos ho2]
      exact hd1
    · rw [if_neg (by rw [Bool.and_eq_true]; tauto), if_neg ho1, if_neg ho2,
        hd1, hd2, if_neg (by simp)]
      exact hent (Bool.eq_false_iff.mpr ho1) (Bool.eq_false_iff.mpr ho2)

/-- A partition term over an exactly saturated sphere is false: every
sphere Cnf is unsatisfiable on its own. -/
lemma satcheck_term_false_sphr {d : MHGraph → Bool} {s : MHGraph}
    {l1 l2 : List HEdge} {h : HEdge}
    (hsno : is_oversaturated s = false)
    (hpos : ∀ u ∈ h, 0 < u)
    (hmem : h ∈ s) (hsat : 2 ^ h.card ≤ s.count h)
    (hd1 : d (graph_union s ↑l1) = false)
    (hd2 : d (graph_union s ↑l2) = false) :
    satcheck_partition d s l1 l2 = false := by
  apply satcheck_term_false hd1 hd2
  intro ho1 ho2
  have hexact : s.count h = 2 ^ h.card :=
    le_antisymm (is_oversaturated_eq_false.mp hsno h hmem) hsat
  have hall := cnfs_all_clauses hmem hexact
  refine satcheck_entangled_false (cnfs_from_mhgraph_ne_nil hsno)
    (cnfs_from_mhgraph_ne_nil ho1) (cnfs_from_mhgraph_ne_nil ho2) ?_ ?_
  · intro xs hxs x hx
    apply cnf_sat_false_of_all_clauses hpos
    intro S hS
    rw [cnf_and_cnf]
    exact Finset.mem_union_left _ (hall xs hxs S hS)
  · intro xs hxs x hx
    apply cnf_sat_false_of_all_clauses hpos
    intro S hS
    rw [cnf_and_cnf]
    exact Finset.mem_union_left _ (hall xs hxs S hS)

/-- A partition term whose two halves each saturate the same hyperedge
is false: when neither half is over-saturated both are exactly
saturated, so every Cnf of either half is unsatisfiable on its own. -/
lemma satcheck_term_false_sat {d : MHGraph → Bool} {s : MHGraph}
    {l1 l2 : List HEdge} {h : HEdge}
    (hsno : is_oversaturated s = false)
    (hpos : ∀ u ∈ h, 0 < u)
    (h1sat : 2 ^ h.card ≤ Multiset.count h (↑l1 : MHGraph))
    (h2sat : 2 ^ h.card ≤ Multiset.count h (↑l2 : MHGraph))
    (hd1 : d (graph_union s ↑l1) = false)
    (hd2 : d (graph_union s ↑l2) = false) :
    satcheck_partition d s l1 l2 = false := by
  apply satcheck_term_false hd1 hd2
  intro ho1 ho2
  have hpow : 0 < 2 ^ h.card := Nat.pos_pow_of_pos _ (by norm_num)
  have h1mem : h ∈ (↑l1 : MHGraph) := Multiset.count_pos.mp (by omega)
  have h2mem : h ∈ (↑l2 : MHGraph) := Multiset.count_pos.mp (by omega)
  have h1exact : Multiset.count h (↑l1 : MHGraph) = 2 ^ h.card :=
    le_antisymm (is_oversaturated_eq_false.mp ho1 h h1mem) h1sat
  have h2exact : Multiset.count h (↑l2 : MHGraph) = 2 ^ h.card :=
    le_antisymm (is_oversaturated_eq_false.mp ho2 h h2mem) h2sat
  have hall1 := cnfs_all_clauses h1mem h1exact
  have hall2 := cnfs_all_clauses h2mem h2exact
  refine satcheck_entangled_false (cnfs_from_mhgraph_ne_nil hsno)
    (cnfs_from_mhgraph_ne_nil ho1) (cnfs_from_mhgraph_ne_nil ho2) ?_ ?_
  · intro xs hxs x hx
    apply cnf_sat_false_of_all_clauses hpos
    intro S hS
    rw [cnf_and_cnf]
    exact Finset.mem_union_right _ (hall1 x hx S hS)
  · intro xs hxs x hx
    apply cnf_sat_false_of_all_clauses hpos
    intro S hS
    rw [cnf_and_cnf]
    exact Finset.mem_union_right _ (hall2 x hx S hS)

/-- When the saturated hyperedge passes through `v`, the link admits a
two-partition both of whose halves saturate the projected hyperedge. -/
lemma sat_split_partition {G : MHGraph} {v : ℕ} {h : HEdge}
    (hwf : WfGraph G) (hsz : ∀ g ∈ G, 2 ≤ g.card)
    (hhG : h ∈ G) (hhsat : 2 ^ h.card ≤ G.count h) (hvin : v ∈ h) :
    ∃ p ∈ two_partitions (elementsList (link G v)),
      (↑p.1 : Multiset HEdge) + ↑p.2 = link G v ∧ p.1 ≠ [] ∧ p.2 ≠ [] ∧
      2 ^ (h.erase v).card ≤
        Multiset.count (h.erase v) (↑p.1 : Multiset HEdge) ∧
      2 ^ (h.erase v).card ≤
        Multiset.count (h.erase v) (↑p.2 : Multiset HEdge) := by
  have hh2 : 2 ≤ h.card := hsz h hhG
  have hne : h ≠ ({v} : Finset ℕ) := by
    intro heq
    rw [heq, Finset.card_singleton] at hh2
    omega
  have hcard' : (h.erase v).card + 1 = h.card := by
    rw [Finset.card_erase_of_mem hvin]
    omega
  have hcountlink : 2 * 2 ^ (h.erase v).card ≤
      Multiset.count (h.erase v) (link G v) := by
    have h1 : G.count h ≤ (link G v).count (h.erase v) :=
      count_link_ge hvin hne
    have h2 : 2 ^ h.card = 2 ^ (h.erase v).card * 2 := by
      rw [← hcard', pow_succ]
    omega
  have hn1 : 1 ≤ 2 ^ (h.erase v).card := Nat.one_le_two_pow
  have hA_le : Multiset.replicate (2 ^ (h.erase v).card) (h.erase v) ≤
      link G v :=
    Multiset.le_count_iff_replicate_le.mp (by omega)
  have hAB : Multiset.replicate (2 ^ (h.erase v).card) (h.erase v) +
      (link G v - Multiset.replicate (2 ^ (h.erase v).card) (h.erase v)) =
      link G v := by
    rw [add_comm]
    exact tsub_add_cancel_of_le hA_le
  have hcountA : Multiset.count (h.erase v)
      (Multiset.replicate (2 ^ (h.erase v).card) (h.erase v)) =
      2 ^ (h.erase v).card := by
    rw [Multiset.count_replicate, if_pos rfl]
  have hcountB : 2 ^ (h.erase v).card ≤ Multiset.count (h.erase v)
      (link G v - Multiset.replicate (2 ^ (h.erase v).card) (h.erase v)) := by
    rw [Multiset.count_sub, hcountA]
    omega
  have hA0 : Multiset.replicate (2 ^ (h.erase v).card) (h.erase v) ≠ 0 := by
    intro h0
    have := congrArg Multiset.card h0
    rw [Multiset.card_replicate] at this
    simp only [Multiset.card_zero] at this
    omega
  have hB0 : link G v -
      Multiset.replicate (2 ^ (h.erase v).card) (h.erase v) ≠ 0 := by
    intro h0
    rw [h0] at hcountB
    simp only [Multiset.count_zero] at hcountB
    omega
  have hAB' : Multiset.replicate (2 ^ (h.erase v).card) (h.erase v) +
      (link G v - Multiset.replicate (2 ^ (h.erase v).card) (h.erase v)) =
      ↑(elementsList (link G v)) := by
    rw [hAB, elementsList_coe]
  obtain ⟨p, hp, hor⟩ := two_partitions_realize hAB' hA0 hB0
  obtain ⟨hsum, hp1, hp2⟩ := two_partitions_sound hp
  refine ⟨p, hp, ?_, hp1, hp2, ?_, ?_⟩
  · rw [hsum, elementsList_coe]
  · rcases hor with ⟨hq1, _⟩ | ⟨hq1, _⟩
    · rw [hq1, hcountA]
    · rw [hq1]
      exact hcountB
  · rcases hor with ⟨_, hq2⟩ | ⟨_, hq2⟩
    · rw [hq2]
      exact hcountB
    · rw [hq2, hcountA]

/-- At a simplified graph carrying a saturated hyperedge, decomposition
at any vertex comes out false, provided the recursive calls on strictly
smaller saturated graphs do. -/
lemma decompose_at_vertex_false {d : MHGraph → Bool} {G : MHGraph} {v : ℕ}
    (hwf : WfGraph G) (hsat : SatEdge G)
    (hsz : ∀ g ∈ G, 2 ≤ g.card)
    (hdeg : ∀ u ∈ vertices G, 2 ≤ degree u G)
    (hv : v ∈ vertices G)
    (hd : ∀ H, WfGraph H → SatEdge H → Multiset.card H < Multiset.card G →
      d H = false) :
    decompose_at_vertex d G v = false := by
  obtain ⟨h, hhG, hhsat⟩ := hsat
  have hh2 : 2 ≤ h.card := hsz h hhG
  have hposh : ∀ u ∈ h, 0 < u := (hwf.2 h hhG).2
  have hlink_card : Multiset.card (link G v) = degree v G :=
    link_card_eq_degree hsz
  have hdegv : 2 ≤ degree v G := hdeg v hv
  have hcard_s : Multiset.card (sphr G v) + degree v G = Multiset.card G :=
    sphr_card G v
  have hdc : degree v G ≤ Multiset.card G := degree_le_card v G
  rw [decompose_at_vertex]
  by_cases hsphr0 : sphr G v = 0
  · rw [if_pos hsphr0]
    have hvin : v ∈ h := sphr_eq_zero_mem hsphr0 h hhG
    obtain ⟨p, hp, hsum, hp1, hp2, hc1, hc2⟩ :=
      sat_split_partition hwf hsz hhG hhsat hvin
    have hcards : Multiset.card (↑p.1 : Multiset HEdge) +
        Multiset.card (↑p.2 : Multiset HEdge) =
        Multiset.card (link G v) := by
      rw [← Multiset.card_add, hsum]
    have hl1pos : 0 < Multiset.card (↑p.1 : Multiset HEdge) := by
      rw [Multiset.coe_card]
      exact List.length_pos.mpr hp1
    have hl2pos : 0 < Multiset.card (↑p.2 : Multiset HEdge) := by
      rw [Multiset.coe_card]
      exact List.length_pos.mpr hp2
    have hle1 : (↑p.1 : Multiset HEdge) ≤ link G v := by
      rw [← hsum]
      exact le_add_right le_rfl
    have hle2 : (↑p.2 : Multiset HEdge) ≤ link G v := by
      rw [← hsum]
      exact le_add_left le_rfl
    have hpow : 0 < 2 ^ (h.erase v).card :=
      Nat.pos_pow_of_pos _ (by norm_num)
    have hd1 : d ↑p.1 = false := by
      apply hd
      · exact wf_coe_of_le_link hwf hp1 hle1
      · exact ⟨h.erase v, Multiset.count_pos.mp (by omega), hc1⟩
      · omega
    have hd2 : d ↑p.2 = false := by
      apply hd
      · exact wf_coe_of_le_link hwf hp2 hle2
      · exact ⟨h.erase v, Multiset.count_pos.mp (by omega), hc2⟩
      · omega
    cases hval : (two_partitions (elementsList (link G v))).all
        (fun q => d ↑q.1 || d ↑q.2) with
    | false => rfl
    | true =>
        exfalso
        rw [List.all_eq_true] at hval
        have hthis : (d ↑p.1 || d ↑p.2) = true := hval p hp
        rw [hd1, hd2] at hthis
        simp at hthis
  · rw [if_neg hsphr0]
    by_cases hover : is_oversaturated (sphr G v) = true
    · rw [if_pos hover]
    · rw [if_neg hover]
      have hsno : is_oversaturated (sphr G v) = false :=
        Bool.eq_false_iff.mpr hover
      have hwfs : WfGraph (sphr G v) :=
        wf_of_le hwf (Multiset.filter_le _ _) hsphr0
      by_cases hvin : v ∈ h
      · obtain ⟨p, hp, hsum, hp1, hp2, hc1, hc2⟩ :=
          sat_split_partition hwf hsz hhG hhsat hvin
        have hcards : Multiset.card (↑p.1 : Multiset HEdge) +
            Multiset.card (↑p.2 : Multiset HEdge) =
            Multiset.card (link G v) := by
          rw [← Multiset.card_add, hsum]
        have hl1pos : 0 < Multiset.card (↑p.1 : Multiset HEdge) := by
          rw [Multiset.coe_card]
          exact List.length_pos.mpr hp1
        have hl2pos : 0 < Multiset.card (↑p.2 : Multiset HEdge) := by
          rw [Multiset.coe_card]
          exact List.length_pos.mpr hp2
        have hle1 : (↑p.1 : Multiset HEdge) ≤ link G v := by
          rw [← hsum]
          exact le_add_right le_rfl
        have hle2 : (↑p.2 : Multiset HEdge) ≤ link G v := by
          rw [← hsum]
          exact le_add_left le_rfl
        have hpow : 0 < 2 ^ (h.erase v).card :=
          Nat.pos_pow_of_pos _ (by norm_num)
        have hposh' : ∀ u ∈ h.erase v, 0 < u := fun u hu =>
          hposh u (Finset.mem_of_mem_erase hu)
        have hu1 : d (graph_union (sphr G v) ↑p.1) = false := by
          apply hd
          · exact wf_graph_union hwfs (wf_coe_of_le_link hwf hp1 hle1)
          · exact satEdge_union_right (Multiset.count_pos.mp (by omega)) hc1
          · rw [graph_union, Multiset.card_add]
            omega
        have hu2 : d (graph_union (sphr G v) ↑p.2) = false := by
          apply hd
          · exact wf_graph_union hwfs (wf_coe_of_le_link hwf hp2 hle2)
          · exact satEdge_union_right (Multiset.count_pos.mp (by omega)) hc2
          · rw [graph_union, Multiset.card_add]
            omega
        have hterm := satcheck_term_false_sat hsno hposh' hc1 hc2 hu1 hu2
        cases hval : (two_partitions (elementsList (link G v))).all
            (fun q => satcheck_partition d (sphr G v) q.1 q.2) with
        | false => rfl
        | true =>
            exfalso
            rw [List.all_eq_true] at hval
            have hthis : satcheck_partition d (sphr G v) p.1 p.2 = true :=
              hval p hp
            rw [hterm] at hthis
            exact Bool.false_ne_true hthis
      · have hmem_s : h ∈ sphr G v := Multiset.mem_filter.mpr ⟨hhG, hvin⟩
        have hsat_s : 2 ^ h.card ≤ (sphr G v).count h := by
          rw [count_sphr_of_not_mem hvin]
          exact hhsat
        have hlen : 2 ≤ (elementsList (link G v)).length := by
          rw [elementsList_length, hlink_card]
          exact hdegv
        rcases hl : elementsList (link G v) with _ | ⟨x, xs⟩
        · rw [hl] at hlen
          simp at hlen
        · have hxs : xs ≠ [] := by
            rw [hl] at hlen
            simp only [List.length_cons] at hlen
            intro h0
            rw [h0] at hlen
            simp at hlen
          have hp := two_partitions_mem_head x hxs
          have hsum : (↑[x] : Multiset HEdge) + ↑xs = link G v := by
            calc (↑[x] : Multiset HEdge) + ↑xs = ↑(x :: xs) :=
                  (two_partitions_sound hp).1
              _ = ↑(elementsList (link G v)) := by rw [hl]
              _ = link G v := elementsList_coe _
          have hcards : Multiset.card (↑[x] : Multiset HEdge) +
              Multiset.card (↑xs : Multiset HEdge) =
              Multiset.card (link G v) := by
            rw [← Multiset.card_add, hsum]
          have hx1 : Multiset.card (↑[x] : Multiset HEdge) = 1 := rfl
          have hxspos : 0 < Multiset.card (↑xs : Multiset HEdge) := by
            rw [Multiset.coe_card]
            exact List.length_pos.mpr hxs
          have hle1 : (↑[x] : Multiset HEdge) ≤ link G v := by
            rw [← hsum]
            exact le_add_right le_rfl
          have hle2 : (↑xs : Multiset HEdge) ≤ link G v := by
            rw [← hsum]
            exact le_add_left le_rfl
          have hu1 : d (graph_union (sphr G v) ↑[x]) = false := by
            apply hd
            · exact wf_graph_union hwfs
                (wf_coe_of_le_link hwf (by simp) hle1)
            · exact satEdge_union_left hmem_s hsat_s
            · rw [graph_union, Multiset.card_add]
              omega
          have hu2 : d (graph_union (sphr G v) ↑xs) = false := by
            apply hd
            · exact wf_graph_union hwfs (wf_coe_of_le_link hwf hxs hle2)
            · exact satEdge_union_left hmem_s hsat_s
            · rw [graph_union, Multiset.card_add]
              omega
          have hterm := satcheck_term_false_sphr hsno hposh hmem_s hsat_s
            hu1 hu2
          cases hval : (two_partitions (x :: xs)).all
              (fun q => satcheck_partition d (sphr G v) q.1 q.2) with
          | false => rfl
          | true =>
              exfalso
              rw [List.all_eq_true] at hval
              have hthis : satcheck_partition d (sphr G v) [x] xs = true :=
                hval ([x], xs) hp
              rw [hterm] at hthis
              exact Bool.false_ne_true hthis

/-- A saturated hyperedge forces the decomposition to false, whatever
the fuel (as long as it suffices) and whatever the iteration order. -/
lemma decomposeB_false_of_satEdge {c : Choice} :
    ∀ {fuel : ℕ} {G : MHGraph}, WfGraph G → SatEdge G →
      Multiset.card G < fuel → decomposeB c fuel G = false := by
  intro fuel
  induction fuel with
  | zero =>
      intro G _ _ hlt
      omega
  | succ n ih =>
      intro G hwf hsat hlt
      rw [decomposeB_succ]
      rcases hsimp : simplify_at_leaves_and_loops c G with b | G'
      · rcases b with _ | _
        · rfl
        · exact absurd hsimp (satEdge_simplify_ne_true hwf hsat)
      · obtain ⟨hwf', hsz, hdeg, hcard, _⟩ := simplify_fixed_props hwf hsimp
        have hsat' : SatEdge G' := satEdge_simplify hwf hsat hsimp
        have hvmem := c.pickMax_mem G' hwf'
        exact decompose_at_vertex_false hwf' hsat' hsz hdeg hvmem
          (fun H hwfH hsatH hltH => ih hwfH hsatH (by omega))

/-- Claim C2: an over-saturated MHGraph decomposes to false and supports
no Cnf at all. -/
theorem claim_C2_oversaturated (c : Choice) (G : MHGraph)
    (hwf : WfGraph G) (hover : is_oversaturated G = true) :
    decompose c G = false ∧ cnfs_from_mhgraph G = [] := by
  constructor
  · have hsat : SatEdge G := by
      rw [is_oversaturated, decide_eq_true_eq] at hover
      obtain ⟨h, hh, hlt⟩ := hover
      exact ⟨h, Multiset.mem_toFinset.mp hh, by omega⟩
    rw [decompose]
    exact decomposeB_false_of_satEdge hwf hsat (Nat.lt_succ_self _)
  · exact cnfs_from_mhgraph_eq_nil hover

/-- Witness for C2: a triple loop at vertex 1 is over-saturated
(`3 > 2^1`), decomposes to false and supports no Cnf. -/
theorem claim_C2_witness :
    WfGraph ({({1} : Finset ℕ), ({1} : Finset ℕ),
      ({1} : Finset ℕ)} : MHGraph) ∧
    is_oversaturated ({({1} : Finset ℕ), ({1} : Finset ℕ),
      ({1} : Finset ℕ)} : MHGraph) = true ∧
    (decompose choiceCanon ({({1} : Finset ℕ), ({1} : Finset ℕ),
        ({1} : Finset ℕ)} : MHGraph) = false ∧
      cnfs_from_mhgraph ({({1} : Finset ℕ), ({1} : Finset ℕ),
        ({1} : Finset ℕ)} : MHGraph) = []) :=
  ⟨⟨by decide, by decide⟩, by decide,
    claim_C2_oversaturated choiceCanon
      ({({1} : Finset ℕ), ({1} : Finset ℕ), ({1} : Finset ℕ)} : MHGraph)
      ⟨by decide, by decide⟩ (by decide)⟩

/-- `mhgraph_bruteforce_satcheck(mhg)` from `sat.py`: an MHGraph is SAT
iff every Cnf supported on it is satisfiable. -/
def mhgraph_bruteforce_satcheck (G : MHGraph) : Bool :=
  (cnfs_from_mhgraph G).all cnf_sat

/-- Claim C1's integrating property, checked on concrete instances (the
spec's scenarios S1, S2, S6 and S7 and a doubled-edge triangle): on each,
`decompose` and the brute-force satcheck agree, with the value the spec
lists.  The general statement, over all MHGraphs, is the research claim
of the decomposition algorithm; it is not settled here. -/
lemma decompose_agrees_on_instances :
    (decompose choiceCanon ({({1, 2} : Finset ℕ), ({1, 3} : Finset ℕ),
        ({2, 3} : Finset ℕ)} : MHGraph) = true ∧
      mhgraph_bruteforce_satcheck ({({1, 2} : Finset ℕ),
        ({1, 3} : Finset ℕ), ({2, 3} : Finset ℕ)} : MHGraph) = true) ∧
    (decompose choiceCanon ({({1, 2} : Finset ℕ), ({1, 2} : Finset ℕ),
        ({1, 2} : Finset ℕ), ({1, 2} : Finset ℕ)} : MHGraph) = false ∧
      mhgraph_bruteforce_satcheck ({({1, 2} : Finset ℕ),
        ({1, 2} : Finset ℕ), ({1, 2} : Finset ℕ),
        ({1, 2} : Finset ℕ)} : MHGraph) = false) ∧
    (decompose choiceCanon ({({1} : Finset ℕ)} : MHGraph) = true ∧
      mhgraph_bruteforce_satcheck ({({1} : Finset ℕ)} : MHGraph) = true) ∧
    (decompose choiceCanon ({({1} : Finset ℕ),
        ({1} : Finset ℕ)} : MHGraph) = false ∧
      mhgraph_bruteforce_satcheck ({({1} : Finset ℕ),
        ({1} : Finset ℕ)} : MHGraph) = false) ∧
    (decompose choiceCanon ({({1, 2} : Finset ℕ), ({1, 2} : Finset ℕ),
        ({1, 3} : Finset ℕ), ({2, 3} : Finset ℕ)} : MHGraph) = true ∧
      mhgraph_bruteforce_satcheck ({({1, 2} : Finset ℕ),
        ({1, 2} : Finset ℕ), ({1, 3} : Finset ℕ),
        ({2, 3} : Finset ℕ)} : MHGraph) = true) :=
  ⟨⟨rfl, rfl⟩, ⟨rfl, rfl⟩, ⟨rfl, rfl⟩, ⟨rfl, rfl⟩, ⟨rfl, rfl⟩⟩

end Graphsat
